import Mathlib

/-!
# User Memory Store — shallow embedding and verification

This file embeds the user-memory plugin (`plugins/user-memory/plugin.py`) in
Lean 4 and settles a list of claims about it.  Functions keep their Python
names (sans leading underscore).  Modelling conventions, noted again at the
definitions they affect:

* Timestamps.  The Python code stores RFC3339 UTC strings and compares them
  through `_parse_iso(...).timestamp()`.  ISO strings of the fixed format used
  by the store compare the same as their integer epoch seconds, so the model
  uses `Nat` timestamps; an absent/empty timestamp string is `Option.none`.
  The wall clock (`_now_utc_iso`) is passed in as an explicit `now : Nat`.
* Fresh ids.  `uuid.uuid4()` is modelled by an explicit supply
  `fresh : Nat → String` (the k-th id the call mints).
* Character classes.  The regex classes `\s`, `\w` and `str.lower()` are
  modelled over the character repertoire the store actually handles
  (ASCII plus Cyrillic), matching CPython semantics on that repertoire.
* Floats.  Scores are modelled as `ℚ`.  All threshold comparisons performed
  by the code are on rationals far from the float rounding error, except
  `cosine_similarity`, whose `sqrt` is modelled at fixed precision; no claim
  below depends on a cosine value.
* Python `dict` preserves insertion order: modelled as association lists.
  Python `set` iteration order is unspecified: modelled by first-occurrence
  order of the corresponding literal.
* Storage.  The SQLite backend is primary; `replace_all` persists the whole
  cleaned list and the JSON mirror keeps the first `JSON_MIRROR_MAX` of it.
  A store state is therefore the cleaned `List MemoryEntry`; the mirror is
  `store.take JSON_MIRROR_MAX`.  Each entry point takes the loaded list and
  returns the list it persists.
-/

namespace UserMemory

/-! ## Constants (`plugin.py` lines 18-24) -/

def MAX_ENTRIES : Nat := 2000
def JSON_MIRROR_MAX : Nat := 600
def MAX_FACT_LEN : Nat := 1200
def MAX_KEY_LEN : Nat := 72
def MAX_TAGS : Nat := 12
def MAX_TAG_LEN : Nat := 32
def MAX_VECTOR_TERMS : Nat := 220

/-! ## Character helpers (model of `\s`, `\w`, `str.lower` on ASCII∪Cyrillic) -/

/-- Model of the regex class `\s` (ASCII whitespace). -/
def isWsChar (c : Char) : Bool :=
  c == ' ' || c == '\t' || c == '\n' || c == '\r' || c == '\x0b' || c == '\x0c'

/-- Model of `str.lower()` on ASCII and Cyrillic letters. -/
def lowerChar (c : Char) : Char :=
  if 'A' ≤ c && c ≤ 'Z' then Char.ofNat (c.toNat + 32)
  else if 0x410 ≤ c.toNat && c.toNat ≤ 0x42F then Char.ofNat (c.toNat + 32)
  else if c.toNat == 0x401 then Char.ofNat 0x451
  else c

def isAsciiAlphaChar (c : Char) : Bool :=
  ('a' ≤ c && c ≤ 'z') || ('A' ≤ c && c ≤ 'Z')

def isDigitChar (c : Char) : Bool := '0' ≤ c && c ≤ '9'

/-- Cyrillic letters (upper and lower case, including ё/Ё). -/
def isCyrChar (c : Char) : Bool :=
  (0x410 ≤ c.toNat && c.toNat ≤ 0x44F) || c.toNat == 0x401 || c.toNat == 0x451

/-- Model of the regex class `\w` (Unicode word character) on ASCII∪Cyrillic. -/
def isWordChar (c : Char) : Bool :=
  isAsciiAlphaChar c || isDigitChar c || c == '_' || isCyrChar c

def lowerStr (s : String) : String := ⟨s.data.map lowerChar⟩

/-! ## Runs of characters (shared backbone of `re.sub(r"\s+", …)` and
`re.findall(r"[^\W_]{2,}", …)`): maximal runs of characters satisfying a
predicate. -/

/-- One `foldr` step: characters failing `keep` split runs. -/
def runStep (keep : Char → Bool) (c : Char) (acc : List (List Char)) :
    List (List Char) :=
  if keep c then
    match acc with
    | [] => [[c]]
    | w :: rest => (c :: w) :: rest
  else [] :: acc

/-- Maximal runs of characters satisfying `keep` (empty runs dropped). -/
def runsBy (keep : Char → Bool) (l : List Char) : List (List Char) :=
  (l.foldr (runStep keep) []).filter (fun w => !w.isEmpty)

/-- The word runs of a character list (split on whitespace). -/
def wordsOf (l : List Char) : List (List Char) :=
  runsBy (fun c => !isWsChar c) l

/-- Model of `re.sub(r"\s+", " ", s).strip()`: whitespace runs collapse to a
single space and the ends are trimmed. -/
def collapseWs (l : List Char) : List Char :=
  List.intercalate [' '] (wordsOf l)

/-- Model of `str.rstrip()` (trailing whitespace removed). -/
def rstripWs (l : List Char) : List Char :=
  (l.reverse.dropWhile (fun c => isWsChar c)).reverse

/-- Model of `str.strip()` (both ends). -/
def stripWs (l : List Char) : List Char :=
  rstripWs (l.dropWhile (fun c => isWsChar c))

/-! ## `_normalize_text` (lines 259-263) -/

/-- `_normalize_text`: collapse whitespace runs, trim, truncate with
`rstrip`.  `max_len = 0` means no truncation (the Python default). -/
def normalize_text (v : String) (maxLen : Nat) : String :=
  let t := collapseWs v.data
  if maxLen > 0 && t.length > maxLen then ⟨rstripWs (t.take maxLen)⟩ else ⟨t⟩

/-! ## `_normalize_token`, `_normalize_term` (lines 266-282) -/

/-- The characters stripped from token edges (`strip("._-")`). -/
def isTokenPunct (c : Char) : Bool := c == '.' || c == '_' || c == '-'

def stripTokenPunct (l : List Char) : List Char :=
  ((l.dropWhile isTokenPunct).reverse.dropWhile isTokenPunct).reverse

def rstripTokenPunct (l : List Char) : List Char :=
  (l.reverse.dropWhile isTokenPunct).reverse

/-- `_normalize_token`.  After `_normalize_text` the only whitespace left is
single `' '`, so `re.sub(r"\s+", "-", …)` is a character map here. -/
def normalize_token (v : String) (maxLen : Nat) : String :=
  let text := lowerStr (normalize_text v (max 24 (maxLen * 3)))
  if text = "" then ""
  else
    let t := text.data.map (fun c => if isWsChar c then '-' else c)
    let t := t.filter (fun c => isWordChar c || c == '.' || c == '-')
    let t := stripTokenPunct t
    let t := if t.length > maxLen then rstripTokenPunct (t.take maxLen) else t
    ⟨t⟩

/-- `_normalize_term`. -/
def normalize_term (v : String) : String :=
  let token := normalize_token v 48
  if token ≠ "" then token else lowerStr (normalize_text v 48)

/-! ## Stopwords and `_tokenize_query` (lines 101-135, 367-382) -/

def QUERY_STOPWORDS : List String :=
  ["какой", "какая", "какое", "какие", "кто", "что", "где", "когда",
   "почему", "зачем", "как", "мне", "меня", "мой", "моя", "мое", "мои",
   "у", "про", "обо", "об", "about", "what", "which", "who", "where",
   "when", "why", "how", "my", "me", "i", "you"]

/-- Dedup/stopword/cap loop of `_tokenize_query` (append, then break once 16
tokens are collected — the Python `if len(deduped) >= 16: break`). -/
def tokenizeGo : List String → List String → List String → List String
  | [], _, acc => acc
  | t :: rest, seen, acc =>
    let safe := normalize_term t
    if safe = "" || seen.contains safe || QUERY_STOPWORDS.contains safe then
      tokenizeGo rest seen acc
    else if (acc ++ [safe]).length ≥ 16 then acc ++ [safe]
    else tokenizeGo rest (safe :: seen) (acc ++ [safe])

/-- `_tokenize_query`: lowercase, maximal runs of `[^\W_]` of length ≥ 2,
stopword-filter, dedupe preserving order, cap at 16. -/
def tokenize_query (v : String) : List String :=
  let safe := lowerStr (normalize_text v 320)
  if safe = "" then []
  else
    let tokens := (runsBy (fun c => isWordChar c && !(c == '_')) safe.data).filter
      (fun t => t.length ≥ 2)
    tokenizeGo (tokens.map (fun t => (⟨t⟩ : String))) [] []

/-! ## Synonym groups and key aliases (lines 31-99, 285-311) -/

/-- `_QUERY_SYNONYM_GROUPS` in the literal's written order (Python uses
`set` literals whose iteration order is unspecified; the model fixes
first-written order — the groups' terms are pairwise distinct across
groups, so lookups are unaffected). -/
def QUERY_SYNONYM_GROUPS : List (List String) :=
  [["phone", "smartphone", "mobile", "cellphone", "iphone", "android",
    "телефон", "смартфон", "мобильник", "сотовый", "айфон", "андроид"],
   ["device", "gadget", "hardware", "устройство", "девайс", "гаджет"],
   ["name", "fullname", "nickname", "имя", "фио", "ник", "никнейм"],
   ["city", "town", "location", "город", "локация", "место"],
   ["profession", "job", "role", "developer", "engineer", "programmer",
    "профессия", "работа", "роль", "разработчик", "инженер", "программист"],
   ["email", "mail", "почта", "емейл"],
   ["timezone", "time-zone", "часовой", "пояс", "таймзона"]]

def dedupStrings (l : List String) : List String :=
  l.foldl (fun acc t => if acc.contains t then acc else acc ++ [t]) []

/-- `_build_synonym_aliases`, as a lookup: the normalized group containing a
normalized term (terms are distinct across groups, so the first hit is the
dict entry). -/
def synonym_groups_normalized : List (List String) :=
  QUERY_SYNONYM_GROUPS.map
    (fun g => dedupStrings ((g.map normalize_term).filter (fun t => t ≠ "")))

/-- `_QUERY_SYNONYM_ALIASES.get(t, set())`. -/
def query_synonym_aliases (t : String) : List String :=
  match synonym_groups_normalized.find? (fun g => g.contains t) with
  | some g => g
  | none => []

/-- `_KEY_ALIAS_RAW` (line 62-89). -/
def KEY_ALIAS_RAW : List (String × String) :=
  [("телефон", "phone"), ("смартфон", "phone"), ("iphone", "phone"),
   ("android", "phone"), ("mobile", "phone"), ("cellphone", "phone"),
   ("name", "name"), ("имя", "name"), ("nickname", "name"),
   ("city", "city"), ("город", "city"), ("location", "city"),
   ("profession", "profession"), ("job", "profession"),
   ("developer", "profession"), ("engineer", "profession"),
   ("programmer", "profession"), ("программист", "profession"),
   ("профессия", "profession"), ("email", "email"), ("mail", "email"),
   ("почта", "email"), ("timezone", "timezone"), ("таймзона", "timezone"),
   ("device", "device"), ("устройство", "device")]

/-- `_KEY_ALIAS_MAP` as an association list (keys stay distinct after
normalization, so the dict comprehension equals first-hit lookup). -/
def key_alias_pairs : List (String × String) :=
  KEY_ALIAS_RAW.map (fun p => (normalize_term p.1, normalize_term p.2))

/-- `_KEY_ALIAS_MAP.get(t, t)`. -/
def key_alias_get (t : String) : String :=
  (key_alias_pairs.lookup t).getD t

/-- `_DEFAULT_TAGS_BY_KEY` (lines 91-99). -/
def DEFAULT_TAGS_BY_KEY : List (String × List String) :=
  [("phone", ["device", "phone"]), ("device", ["device"]),
   ("name", ["profile"]), ("city", ["location"]),
   ("profession", ["profile", "work"]), ("email", ["contact"]),
   ("timezone", ["profile", "timezone"])]

/-- `_KNOWN_INFER_KEYS` (lines 303-311): normalized default-tag keys plus
normalized alias values, with `""` discarded. -/
def KNOWN_INFER_KEYS : List String :=
  (dedupStrings
    (DEFAULT_TAGS_BY_KEY.map (fun p => normalize_term p.1) ++
     key_alias_pairs.map (fun p => normalize_term p.2))).filter (fun t => t ≠ "")

/-! ## `_canonicalize_key`, tags, `_safe_int` (lines 314-364) -/

def canonicalize_key (v : String) : String :=
  let token := normalize_token v MAX_KEY_LEN
  if token = "" then "" else key_alias_get token

/-- The shared per-tag pipeline of `_normalize_tags`/`_merge_tags`:
`_normalize_term`, alias, `_normalize_token` with the tag cap. -/
def canonical_tag (raw : String) : Option String :=
  let tag := normalize_term raw
  if tag = "" then none
  else
    let c := normalize_token (key_alias_get tag) MAX_TAG_LEN
    if c = "" then none else some c

/-- Loop body of `_normalize_tags` (append, then break at `MAX_TAGS`). -/
def normalizeTagsGo : List String → List String → List String → List String
  | [], _, acc => acc
  | raw :: rest, seen, acc =>
    match canonical_tag raw with
    | none => normalizeTagsGo rest seen acc
    | some c =>
      if seen.contains c then normalizeTagsGo rest seen acc
      else if (acc ++ [c]).length ≥ MAX_TAGS then acc ++ [c]
      else normalizeTagsGo rest (c :: seen) (acc ++ [c])

/-- `_normalize_tags`; `none` models a non-list payload value. -/
def normalize_tags (v : Option (List String)) : List String :=
  match v with
  | none => []
  | some l => normalizeTagsGo (l.take (MAX_TAGS * 4)) [] []

/-- `_merge_tags` iterates `left` then `right` with the same per-tag
pipeline, returning once `MAX_TAGS` tags are merged. -/
def merge_tags (left right : List String) : List String :=
  normalizeTagsGo (left ++ right) [] []

/-- `_safe_int`; `none` models an unparsable value (→ fallback, unclamped). -/
def safe_int (v : Option Int) (fallback lo hi : Int) : Int :=
  match v with
  | none => fallback
  | some n => max lo (min hi n)

/-! ## Regex model and slot/generic-recall rules (lines 137-216, 412-442)

The rule regexes are literal words wrapped in `\b`, searched in text already
collapsed by `_normalize_text` (so `\s+` matches exactly one space) and
lowercased (so `IGNORECASE` is moot).  Small alternations are expanded into
several literals.  `\b` holds where a word character meets a non-word
character or the text ends. -/

/-- Substring test (Python `needle in hay`). -/
def contains_sub : List Char → List Char → Bool
  | needle, [] => needle.isEmpty
  | needle, c :: rest => needle.isPrefixOf (c :: rest) || contains_sub needle rest

def str_contains_sub (needle hay : String) : Bool := contains_sub needle.data hay.data

/-- `lit` occurs at the head of `hay`, with a word boundary before (`prev` is
the character preceding `hay`, if any).  All rule literals start and end
with a word character. -/
def boundedHere (lit hay : List Char) (prev : Option Char) (alsoAfter : Bool) : Bool :=
  lit.isPrefixOf hay &&
  (match prev with
   | none => true
   | some c => !isWordChar c) &&
  (!alsoAfter ||
   (match (hay.drop lit.length).head? with
    | none => true
    | some c => !isWordChar c))

def boundedSearchAux (lit : List Char) (alsoAfter : Bool) :
    List Char → Option Char → Bool
  | [], prev => boundedHere lit [] prev alsoAfter
  | c :: rest, prev =>
    boundedHere lit (c :: rest) prev alsoAfter || boundedSearchAux lit alsoAfter rest (some c)

/-- `re.search(r"\blit\b", hay)` for a literal `lit`. -/
def regex_word_bounded (lit hay : String) : Bool :=
  boundedSearchAux lit.data true hay.data none

/-- `re.search(r"\blit…", hay)`: boundary before only (used for patterns
ending in `\w*\b`, which always succeeds after the literal). -/
def regex_word_start (lit hay : String) : Bool :=
  boundedSearchAux lit.data false hay.data none

/-- One rule pattern: a `\b`-wrapped literal or a plain substring (`r"@"`). -/
inductive RulePat where
  | word (lit : String)
  | plain (lit : String)
deriving Repr, DecidableEq

def matchesPat (hay : String) : RulePat → Bool
  | .word lit => regex_word_bounded lit hay
  | .plain lit => str_contains_sub lit hay

/-- `_SLOT_HINT_RULES` (lines 145-216); `мо[её] имя` and `часов(ой|ого)`
expanded into their two literals. -/
def SLOT_HINT_RULES : List (String × List RulePat × List String) :=
  [("phone",
    ([.word "iphone", .word "android", .word "phone", .word "smartphone",
      .word "телефон", .word "смартфон", .word "айфон"],
     ["device", "phone"])),
   ("name",
    ([.word "my name is", .word "i am", .word "меня зовут",
      .word "моё имя", .word "мое имя", .word "зовут"],
     ["profile"])),
   ("city",
    ([.word "i live in", .word "from", .word "живу", .word "мой город",
      .word "город"],
     ["location"])),
   ("profession",
    ([.word "работаю", .word "профессия", .word "программист",
      .word "developer", .word "engineer", .word "programmer",
      .word "my job"],
     ["profile", "work"])),
   ("email",
    ([.plain "@", .word "email", .word "e-mail", .word "почта",
      .word "емейл"],
     ["contact"])),
   ("timezone",
    ([.word "timezone", .word "time zone", .word "часовой",
      .word "часового", .word "пояс", .word "таймзон"],
     ["profile", "timezone"]))]

/-- `_infer_slot_from_text` (lines 434-442). -/
def infer_slot_from_text (text : String) : String × List String :=
  let safe := lowerStr (normalize_text text MAX_FACT_LEN)
  if safe = "" then ("", [])
  else
    match SLOT_HINT_RULES.find? (fun r => r.2.1.any (matchesPat safe)) with
    | some r => (r.1, r.2.2)
    | none => ("", [])

/-- `_default_tags_for_key` (lines 445-449). -/
def default_tags_for_key (key : String) : List String :=
  let safeKey := canonicalize_key key
  if safeKey = "" then []
  else normalize_tags (some ((DEFAULT_TAGS_BY_KEY.lookup safeKey).getD []))

/-- `_infer_key_from_terms` (lines 401-409). -/
def infer_key_from_terms (terms : List String) : String :=
  match terms.find? (fun term =>
      let token := normalize_token term MAX_KEY_LEN
      token ≠ "" && KNOWN_INFER_KEYS.contains (normalize_term (key_alias_get token))) with
  | some term => normalize_term (key_alias_get (normalize_token term MAX_KEY_LEN))
  | none => ""

/-- `_expand_query_terms` (lines 385-398): each term then its synonym group,
deduped preserving order. -/
def expandGo : List String → List String → List String → List String
  | [], _, acc => acc
  | raw :: rest, seen, acc =>
    let term := normalize_term raw
    if term = "" then expandGo rest seen acc
    else
      let step := (term :: query_synonym_aliases term).foldl
        (fun (st : List String × List String) candidate =>
          let safe := normalize_term candidate
          if safe = "" || st.1.contains safe then st
          else (safe :: st.1, st.2 ++ [safe])) (seen, acc)
      expandGo rest step.1 step.2

def expand_query_terms (terms : List String) : List String :=
  expandGo terms [] []

/-- `_GENERIC_RECALL_PATTERNS` (lines 137-143), with optional groups
expanded: `(обо мне )?` / `(?:\s+мне)?` / `(?:\s+about\s+me)?` are either
subsumed by the boundary logic or expanded into a second literal, and
`помни\w*\b` needs no boundary after the literal. -/
def generic_recall_pattern_hit (query : String) : Bool :=
  regex_word_start "что ты помни" query ||
  regex_word_start "что ты обо мне помни" query ||
  regex_word_bounded "что ты знаешь обо мне" query ||
  regex_word_bounded "напомни" query ||
  regex_word_bounded "what do you remember" query ||
  regex_word_bounded "what do you know about me" query

def MEMORY_INTENT_TERMS : List String :=
  ["помнишь", "помнить", "знаешь", "remember", "recall", "memory"]

/-- `_looks_like_generic_recall_query` (lines 412-431). -/
def looks_like_generic_recall_query (v : String) : Bool :=
  let query := lowerStr (normalize_text v 240)
  if query = "" then false
  else if generic_recall_pattern_hit query then true
  else
    let intent := tokenize_query query
    if intent.isEmpty then true
    else intent.all (fun t => MEMORY_INTENT_TERMS.contains t)

/-! ## `difflib.SequenceMatcher` (used by `_fuzzy_similarity` and
`_user_identities_match`)

For inputs shorter than 200 characters (always the case here: identities are
capped at 96, fuzzy inputs at 220/420) the autojunk heuristic is off, so
`ratio` is plain Ratcliff–Obershelp: `find_longest_match` is the dynamic
program over `j2len` (ties resolved to the earliest `i`, then earliest `j`,
by the strict `>` update), and the junk extension loops are no-ops. -/

/-- `j2len.get(j, 0)`. -/
def alookup (l : List (Nat × Nat)) (j : Nat) : Nat :=
  (((l.find? (fun p => p.1 == j)).map (fun p => p.2)).getD 0)

/-- `find_longest_match` over whole lists: returns `(besti, bestj, bestsize)`. -/
def find_longest_match (a b : List Char) : Nat × Nat × Nat :=
  (a.enum.foldl
    (fun (st : List (Nat × Nat) × (Nat × Nat × Nat)) ic =>
      let newRow := b.enum.filterMap (fun jc =>
        if jc.2 = ic.2 then
          some (jc.1, (if jc.1 = 0 then 0 else alookup st.1 (jc.1 - 1)) + 1)
        else none)
      let best := newRow.foldl
        (fun (bst : Nat × Nat × Nat) jk =>
          if jk.2 > bst.2.2 then (ic.1 + 1 - jk.2, jk.1 + 1 - jk.2, jk.2) else bst)
        st.2
      (newRow, best))
    ([], (0, 0, 0))).2

/-- Total size of `get_matching_blocks` (the recursion over the two sides of
the longest match); `fuel ≥ |a| + |b| + 1` makes it the true value. -/
def match_total : Nat → List Char → List Char → Nat
  | 0, _, _ => 0
  | fuel + 1, a, b =>
    let m := find_longest_match a b
    if m.2.2 = 0 then 0
    else
      m.2.2 + match_total fuel (a.take m.1) (b.take m.2.1) +
        match_total fuel (a.drop (m.1 + m.2.2)) (b.drop (m.2.1 + m.2.2))

/-- `SequenceMatcher(a=…, b=…).ratio()` as an exact rational. -/
def ratio_of (a b : List Char) : ℚ :=
  let total := a.length + b.length
  if total = 0 then 1
  else (2 * (match_total (total + 1) a b : ℚ)) / total

/-- `_fuzzy_similarity` (lines 520-525). -/
def fuzzy_similarity (query target : String) : ℚ :=
  let q := lowerStr (normalize_text query 220)
  let t := lowerStr (normalize_text target 420)
  if q = "" || t = "" then 0 else ratio_of q.data t.data

/-! ## Identity matcher (lines 218-252, 528-593) -/

/-- `_CYRILLIC_TO_LATIN` as a per-character map (`ъ`/`ь` map to `""`). -/
def cyr_to_latin (c : Char) : Option String :=
  if c == 'а' then some "a" else if c == 'б' then some "b"
  else if c == 'в' then some "v" else if c == 'г' then some "g"
  else if c == 'д' then some "d" else if c == 'е' then some "e"
  else if c == 'ё' then some "e" else if c == 'ж' then some "zh"
  else if c == 'з' then some "z" else if c == 'и' then some "i"
  else if c == 'й' then some "y" else if c == 'к' then some "k"
  else if c == 'л' then some "l" else if c == 'м' then some "m"
  else if c == 'н' then some "n" else if c == 'о' then some "o"
  else if c == 'п' then some "p" else if c == 'р' then some "r"
  else if c == 'с' then some "s" else if c == 'т' then some "t"
  else if c == 'у' then some "u" else if c == 'ф' then some "f"
  else if c == 'х' then some "h" else if c == 'ц' then some "ts"
  else if c == 'ч' then some "ch" else if c == 'ш' then some "sh"
  else if c == 'щ' then some "shch" else if c == 'ъ' then some ""
  else if c == 'ы' then some "y" else if c == 'ь' then some ""
  else if c == 'э' then some "e" else if c == 'ю' then some "yu"
  else if c == 'я' then some "ya" else none

/-- `_latinize_cyrillic` (lines 528-532). -/
def latinize_cyrillic (s : String) : String :=
  ⟨(s.data.map (fun c =>
      match cyr_to_latin c with
      | some r => r.data
      | none => [c])).flatten⟩

def isLatinAlnum (c : Char) : Bool :=
  ('a' ≤ c && c ≤ 'z') || ('0' ≤ c && c ≤ '9')

/-- `_normalize_user_identity` (lines 535-541): lowercase, transliterate,
non-alphanumeric runs to single spaces, collapse, strip (the two `re.sub`
compose into map-to-space followed by collapse). -/
def normalize_user_identity (v : String) : String :=
  let raw := lowerStr (normalize_text v 96)
  if raw = "" then ""
  else
    let latin := latinize_cyrillic raw
    ⟨collapseWs (latin.data.map (fun c => if isLatinAlnum c then c else ' '))⟩

/-- Dedup/cap-6 loop of `_split_user_identity`. -/
def splitIdentGo : List String → List String → List String → List String
  | [], _, acc => acc
  | p :: rest, seen, acc =>
    if seen.contains p then splitIdentGo rest seen acc
    else if (acc ++ [p]).length ≥ 6 then acc ++ [p]
    else splitIdentGo rest (p :: seen) (acc ++ [p])

/-- `_split_user_identity` (lines 544-558). -/
def split_user_identity (v : String) : List String :=
  let normalized := normalize_user_identity v
  if normalized = "" then []
  else
    let parts := (wordsOf normalized.data).filter (fun p => p.length ≥ 2)
    splitIdentGo (parts.map (fun p => (⟨p⟩ : String))) [] []

/-- `_user_identities_match` (lines 561-593).  Token sets are the deduped
token lists; `len(overlap)/min ≥ 0.5` is the exact rational comparison
`2·|overlap| ≥ min` (the float division of such small integers cannot cross
the threshold by rounding). -/
def user_identities_match (runtime_user_name entry_user_name : String) : Bool :=
  if runtime_user_name = "" || entry_user_name = "" then false
  else if runtime_user_name = entry_user_name then true
  else
    let rn := normalize_user_identity runtime_user_name
    let en := normalize_user_identity entry_user_name
    if rn = "" || en = "" then false
    else if rn = en then true
    else if rn.length ≥ 4 && str_contains_sub rn en then true
    else if en.length ≥ 4 && str_contains_sub en rn then true
    else
      let rt := split_user_identity runtime_user_name
      let et := split_user_identity entry_user_name
      let tokenHit :=
        if !rt.isEmpty && !et.isEmpty then
          let overlap := rt.filter (fun t => et.contains t)
          if !overlap.isEmpty && 2 * overlap.length ≥ min rt.length et.length then
            true
          else
            rt.any (fun l => et.any (fun r => ratio_of l.data r.data ≥ 78 / 100))
        else false
      if tokenHit then true
      else ratio_of rn.data en.data ≥ 72 / 100

/-! ## Sparse vectors, cosine, lexical blob (lines 470-517) -/

/-- Ordered-dict add: `weights[key] = weights.get(key, 0.0) + w` keeps the
key's first-insertion position. -/
def kv_add : List (String × ℚ) → String → ℚ → List (String × ℚ)
  | [], k, w => [(k, w)]
  | (k', w') :: rest, k, w =>
    if k' = k then (k', w' + w) :: rest else (k', w') :: kv_add rest k w

/-- Character trigrams of a term (`term[idx:idx+3]` for `idx < len - 2`). -/
def trigrams (term : String) : List String :=
  (List.range (term.length - 2)).map (fun i => ⟨(term.data.drop i).take 3⟩)

/-- Descending stable sort by weight (`sorted(…, key=weight, reverse=True)`). -/
def weight_ge (x y : String × ℚ) : Prop := y.2 ≤ x.2

instance : DecidableRel weight_ge := fun x y => inferInstanceAs (Decidable (y.2 ≤ x.2))

/-- `_build_sparse_vector` (lines 485-501). -/
def build_sparse_vector (text : String) : List (String × ℚ) :=
  let terms := expand_query_terms (tokenize_query text)
  if terms.isEmpty then []
  else
    let weights := terms.foldl
      (fun acc term =>
        let acc := kv_add acc ("t:" ++ term) 1
        if term.length ≥ 4 then
          (trigrams term).foldl (fun a g => kv_add a ("g:" ++ g) (2 / 10)) acc
        else acc)
      []
    if weights.length > MAX_VECTOR_TERMS then
      (List.insertionSort weight_ge weights).take MAX_VECTOR_TERMS
    else weights

/-- Fixed-precision rational square root (model of float `math.sqrt`). -/
def rat_sqrt (q : ℚ) : ℚ :=
  if q ≤ 0 then 0 else (Nat.sqrt (q * 10 ^ 12).floor.toNat : ℚ) / 10 ^ 6

/-- `_cosine_similarity` (lines 504-517); `√l·√r` is modelled as `√(l·r)` at
fixed precision (equal in ℝ). -/
def cosine_similarity (left right : List (String × ℚ)) : ℚ :=
  if left.isEmpty || right.isEmpty then 0
  else
    let dot := left.foldl (fun s kv => s + kv.2 * ((right.lookup kv.1).getD 0)) 0
    let leftNorm := left.foldl (fun s kv => s + kv.2 * kv.2) 0
    let rightNorm := right.foldl (fun s kv => s + kv.2 * kv.2) 0
    if leftNorm ≤ 0 || rightNorm ≤ 0 then 0
    else dot / rat_sqrt (leftNorm * rightNorm)

/-! ## Entry model (lines 596-642, 786-811)

`MemoryEntry` is the normalized record.  Timestamps are epoch seconds
(`_parse_iso` of the stored RFC3339 string); they are always present after
normalization.  `RawEntry` is an arbitrary persisted record: `Option`-typed
fields model absent/empty/unparsable values (`tags` not a list,
`importance` unparsable, timestamp string empty). -/

structure MemoryEntry where
  id : String
  key : String
  fact : String
  tags : List String
  importance : Int
  created_at : Nat
  updated_at : Nat
  user_name : String
  chat_id : String
  /-- `_lexical_blob` as attached by the SQLite read path (`""` = absent). -/
  lexical_blob : String := ""
  /-- `_semantic_vector` as attached by the SQLite read path (`[]` = absent). -/
  semantic_vector : List (String × ℚ) := []
deriving Repr, DecidableEq

structure RawEntry where
  id : String := ""
  key : String := ""
  fact : String := ""
  tags : Option (List String) := none
  importance : Option Int := none
  created_at : Option Nat := none
  updated_at : Option Nat := none
  user_name : String := ""
  chat_id : String := ""
deriving Repr, DecidableEq

/-- `_normalize_memory_entry` (lines 596-620).  `freshId` models the
`_new_memory_id()` minted when the raw id normalizes to empty; `now` models
`_now_utc_iso()` for a missing `created_at`. -/
def normalize_memory_entry (raw : RawEntry) (now : Nat) (freshId : String) :
    Option MemoryEntry :=
  let fact := normalize_text raw.fact MAX_FACT_LEN
  if fact = "" then none
  else
    let entryId := let t := normalize_text raw.id 120; if t = "" then freshId else t
    let created := raw.created_at.getD now
    some
      { id := entryId
        key := canonicalize_key raw.key
        fact := fact
        tags := normalize_tags raw.tags
        importance := safe_int raw.importance 3 1 5
        created_at := created
        updated_at := raw.updated_at.getD created
        user_name := normalize_text raw.user_name 96
        chat_id := normalize_text raw.chat_id 96 }

/-- View of an in-memory entry dict as raw input to `_normalize_memory_entry`
(derived `_lexical_blob`/`_semantic_vector` keys are not read by it). -/
def entry_to_raw (e : MemoryEntry) : RawEntry :=
  { id := e.id, key := e.key, fact := e.fact, tags := some e.tags,
    importance := some e.importance, created_at := some e.created_at,
    updated_at := some e.updated_at, user_name := e.user_name,
    chat_id := e.chat_id }

/-- `_entry_sort_key` (lines 623-624): `(updated_at timestamp, importance)`. -/
def entry_sort_key (e : MemoryEntry) : Nat × Int := (e.updated_at, e.importance)

/-- Lexicographic "greater-or-equal" giving Python's stable
`sorted(…, key=_entry_sort_key, reverse=True)` via insertion sort. -/
def sort_key_ge (a b : MemoryEntry) : Prop :=
  (entry_sort_key b).1 < (entry_sort_key a).1 ∨
    ((entry_sort_key b).1 = (entry_sort_key a).1 ∧
      (entry_sort_key b).2 ≤ (entry_sort_key a).2)

instance : DecidableRel sort_key_ge := fun _ _ =>
  inferInstanceAs (Decidable (_ ∨ _))

/-- Loop of `_prepare_entries` (lines 627-642): normalize, re-mint empty or
duplicate ids, stop once `MAX_ENTRIES` entries are kept.  `cap` is the
remaining capacity, `k` the iteration index feeding the id supply. -/
def prepareGo (now : Nat) (fresh : Nat → String) :
    Nat → Nat → List String → List MemoryEntry → List MemoryEntry
  | _, _, _, [] => []
  | 0, _, _, _ :: _ => []
  | cap + 1, k, seen, e :: rest =>
    match normalize_memory_entry (entry_to_raw e) now (fresh (2 * k)) with
    | none => prepareGo now fresh (cap + 1) (k + 1) seen rest
    | some ne =>
      let mid := if ne.id = "" || seen.contains ne.id then fresh (2 * k + 1) else ne.id
      { ne with id := mid } :: prepareGo now fresh cap (k + 1) (mid :: seen) rest

/-- `_prepare_entries`. -/
def prepare_entries (now : Nat) (fresh : Nat → String)
    (entries : List MemoryEntry) : List MemoryEntry :=
  prepareGo now fresh MAX_ENTRIES 0 [] (List.insertionSort sort_key_ge entries)

/-- `_save_entries` (lines 805-811, 873-888, 907-911): both backends persist
`cleaned = _prepare_entries(entries)` (SQLite `replace_all`, or the JSON
fallback) and the JSON mirror keeps `cleaned[:JSON_MIRROR_MAX]`.
Returns `(persisted rows, JSON mirror)`. -/
def save_entries (now : Nat) (fresh : Nat → String)
    (entries : List MemoryEntry) : List MemoryEntry × List MemoryEntry :=
  let cleaned := prepare_entries now fresh entries
  (cleaned, cleaned.take JSON_MIRROR_MAX)

/-- Loop of `_load_entries_from_settings` (lines 786-802): normalize each raw
item, re-mint ids already seen. -/
def loadSettingsGo (now : Nat) (fresh : Nat → String) :
    Nat → List String → List RawEntry → List MemoryEntry
  | _, _, [] => []
  | k, seen, item :: rest =>
    match normalize_memory_entry item now (fresh (2 * k)) with
    | none => loadSettingsGo now fresh (k + 1) seen rest
    | some ne =>
      let mid := if seen.contains ne.id then fresh (2 * k + 1) else ne.id
      { ne with id := mid } :: loadSettingsGo now fresh (k + 1) (mid :: seen) rest

/-- `_load_entries_from_settings`; non-list mirrors load as `[]` upstream. -/
def load_entries_from_settings (raw : List RawEntry) (now : Nat)
    (fresh : Nat → String) : List MemoryEntry :=
  prepare_entries now (fun j => fresh (2 * raw.length + j))
    (loadSettingsGo now fresh 0 [] raw)

/-! ## Scope and public projection (lines 914-966) -/

/-- `_resolve_scope`. -/
def resolve_scope (v : String) : String :=
  let scope := lowerStr (normalize_text v 24)
  if scope = "current_user" || scope = "all" then scope else "current_user"

/-- `_matches_scope` (lines 919-929). -/
def matches_scope (e : MemoryEntry) (scope : String) (runtime_user_name : String) :
    Bool :=
  if scope = "all" then true
  else
    let safeRuntimeUser := lowerStr (normalize_text runtime_user_name 96)
    if safeRuntimeUser = "" then true
    else
      let entryUser := lowerStr (normalize_text e.user_name 96)
      if entryUser = "" then true
      else user_identities_match safeRuntimeUser entryUser

structure PublicMemory where
  id : String
  key : String
  fact : String
  tags : List String
  importance : Int
  updated_at : Nat
  /-- present only when `include_user`. -/
  user_name : Option String := none
deriving Repr, DecidableEq

/-- `_public_memory` (lines 932-943). -/
def public_memory (e : MemoryEntry) (includeUser : Bool) : PublicMemory :=
  { id := e.id, key := canonicalize_key e.key, fact := e.fact,
    tags := normalize_tags (some e.tags), importance := e.importance,
    updated_at := e.updated_at,
    user_name := if includeUser then some e.user_name else none }

/-- `_build_lexical_blob` (lines 470-482). -/
def build_lexical_blob (e : MemoryEntry) : String :=
  let fact := normalize_text e.fact MAX_FACT_LEN
  let key := canonicalize_key e.key
  let tags := normalize_tags (some e.tags)
  let joined := String.intercalate " " tags
  let tokens :=
    (if fact ≠ "" then tokenize_query fact else []) ++
    (if key ≠ "" then tokenize_query key else []) ++
    (if joined ≠ "" then tokenize_query joined else [])
  let expanded := expand_query_terms tokens
  let pieces := [fact, key, joined, String.intercalate " " expanded]
  normalize_text (String.intercalate " " (pieces.filter (fun p => p ≠ ""))) 4000

/-- `_entry_vector` (lines 946-959). -/
def entry_vector (e : MemoryEntry) : List (String × ℚ) :=
  if !e.semantic_vector.isEmpty then e.semantic_vector
  else
    let blob := normalize_text e.lexical_blob 4000
    build_sparse_vector (if blob ≠ "" then blob else build_lexical_blob e)

/-- `_entry_search_blob` (lines 962-966). -/
def entry_search_blob (e : MemoryEntry) : String :=
  let blob := normalize_text e.lexical_blob 4000
  if blob ≠ "" then lowerStr blob else lowerStr (build_lexical_blob e)

/-! ## Entry points (lines 1030-1282)

Each operation gets the loaded entry list and returns what it persists (see
the storage model in the header).  `request_id` models
`host.create_request_id()`. -/

structure RuntimeInfo where
  user_name : String := ""
  chat_id : String := ""
deriving Repr, DecidableEq

structure RememberArgs where
  fact : String := ""
  key : String := ""
  tags : Option (List String) := none
  importance : Option Int := none
  overwrite_key : Bool := true
deriving Repr, DecidableEq

/-- Find the first entry satisfying `p`; return it, its replacement `f e`,
and the list with the replacement in place (the index search plus
`entries[target_index] = existing` of `remember`). -/
def replace_first (p : MemoryEntry → Bool) (f : MemoryEntry → MemoryEntry) :
    List MemoryEntry → Option (MemoryEntry × MemoryEntry × List MemoryEntry)
  | [] => none
  | e :: rest =>
    if p e then some (e, f e, f e :: rest)
    else
      match replace_first p f rest with
      | some (o, n, l) => some (o, n, e :: l)
      | none => none

structure RememberCoreOut where
  action : String
  saved : MemoryEntry
  entries : List MemoryEntry
deriving Repr, DecidableEq

/-- The canonical key `remember` ends up using: the supplied key, or the
inferred slot when no key was supplied (lines 1036, 1041-1043). -/
def remember_key (args : RememberArgs) : String :=
  let key0 := canonicalize_key args.key
  let inferred := infer_slot_from_text (normalize_text args.fact MAX_FACT_LEN)
  if key0 = "" && inferred.1 ≠ "" then inferred.1 else key0

/-- The tag list `remember` ends up using: supplied tags merged with
inferred tags and the key's default tags (lines 1037, 1044-1046). -/
def remember_tags (args : RememberArgs) : List String :=
  let tags1 := merge_tags (normalize_tags args.tags)
    (infer_slot_from_text (normalize_text args.fact MAX_FACT_LEN)).2
  if remember_key args ≠ "" then
    merge_tags tags1 (default_tags_for_key (remember_key args))
  else tags1

/-- The in-place update of an existing entry (lines 1071-1087).  The
`created_at` fallback (`if not _normalize_text(existing["created_at"])`)
cannot fire in the model: timestamps of loaded entries are always present. -/
def remember_update (args : RememberArgs) (rt : RuntimeInfo) (now : Nat)
    (e : MemoryEntry) : MemoryEntry :=
  { e with
    fact := normalize_text args.fact MAX_FACT_LEN
    key := if remember_key args ≠ "" then remember_key args
           else canonicalize_key e.key
    tags := merge_tags (normalize_tags (some e.tags)) (remember_tags args)
    importance := safe_int args.importance 3 1 5
    updated_at := now
    chat_id := if normalize_text rt.chat_id 96 ≠ "" then normalize_text rt.chat_id 96
               else normalize_text e.chat_id 96
    user_name := if normalize_text rt.user_name 96 ≠ "" then normalize_text rt.user_name 96
                 else normalize_text e.user_name 96 }

/-- The freshly appended entry (lines 1089-1100). -/
def remember_new_entry (args : RememberArgs) (rt : RuntimeInfo) (now : Nat)
    (freshId : String) : MemoryEntry :=
  { id := freshId, key := remember_key args,
    fact := normalize_text args.fact MAX_FACT_LEN, tags := remember_tags args,
    importance := safe_int args.importance 3 1 5, created_at := now,
    updated_at := now, chat_id := normalize_text rt.chat_id 96,
    user_name := normalize_text rt.user_name 96 }

/-- The duplicate-fact scan predicate (lines 1055-1061). -/
def remember_fact_pred (args : RememberArgs) (rt : RuntimeInfo)
    (e : MemoryEntry) : Bool :=
  matches_scope e "current_user" (normalize_text rt.user_name 96) &&
    lowerStr (normalize_text e.fact MAX_FACT_LEN) ==
      lowerStr (normalize_text args.fact MAX_FACT_LEN)

/-- The duplicate-key scan predicate (lines 1063-1069). -/
def remember_key_pred (args : RememberArgs) (rt : RuntimeInfo)
    (e : MemoryEntry) : Bool :=
  matches_scope e "current_user" (normalize_text rt.user_name 96) &&
    canonicalize_key e.key == remember_key args

/-- `remember` up to (and excluding) `_save_entries` (lines 1030-1100):
argument normalization, slot inference, the two duplicate scans, the
in-place update or the append. -/
def remember_core (args : RememberArgs) (rt : RuntimeInfo) (now : Nat)
    (freshId : String) (entries : List MemoryEntry) :
    Except String RememberCoreOut :=
  if normalize_text args.fact MAX_FACT_LEN = "" then .error "fact is required"
  else
    match replace_first (remember_fact_pred args rt)
        (remember_update args rt now) entries with
    | some (_, n, l) => .ok ⟨"updated", n, l⟩
    | none =>
      if remember_key args ≠ "" && args.overwrite_key then
        match replace_first (remember_key_pred args rt)
            (remember_update args rt now) entries with
        | some (_, n, l) => .ok ⟨"updated", n, l⟩
        | none =>
          .ok ⟨"saved", remember_new_entry args rt now freshId,
            entries ++ [remember_new_entry args rt now freshId]⟩
      else
        .ok ⟨"saved", remember_new_entry args rt now freshId,
          entries ++ [remember_new_entry args rt now freshId]⟩

structure RememberResult where
  status : String
  memory : PublicMemory
  total_memories : Nat
  request_id : String
  /-- The persisted rows (the JSON mirror is `store.take JSON_MIRROR_MAX`). -/
  store : List MemoryEntry
deriving Repr, DecidableEq

/-- `remember` (lines 1030-1109). -/
def remember (args : RememberArgs) (rt : RuntimeInfo) (now : Nat)
    (freshId : String) (prepFresh : Nat → String) (requestId : String)
    (entries : List MemoryEntry) : Except String RememberResult :=
  (remember_core args rt now freshId entries).map fun c =>
    let cleaned := prepare_entries now prepFresh c.entries
    { status := c.action, memory := public_memory c.saved false,
      total_memories := cleaned.length, request_id := requestId,
      store := cleaned }

structure RecallArgs where
  query : String := ""
  key : String := ""
  tags : Option (List String) := none
  scope : String := ""
  limit : Option Int := none
deriving Repr, DecidableEq

structure RecallResult where
  query : String
  key : String
  tags : List String
  scope : String
  count : Nat
  memories : List PublicMemory
  results : List (String × String)
  request_id : String
deriving Repr, DecidableEq

/-- Relation for `ranked.sort(key=λi. (i[0], i[1]), reverse=True)`:
descending stable by `(score, updated_ts)`. -/
def rank_by_score (x y : ℚ × Nat × MemoryEntry) : Prop :=
  y.1 < x.1 ∨ (y.1 = x.1 ∧ y.2.1 ≤ x.2.1)

/-- Relation for `ranked.sort(key=λi. (i[1], i[0]), reverse=True)`:
descending stable by `(updated_ts, score)`. -/
def rank_by_ts (x y : ℚ × Nat × MemoryEntry) : Prop :=
  y.2.1 < x.2.1 ∨ (y.2.1 = x.2.1 ∧ y.1 ≤ x.1)

instance : DecidableRel rank_by_score := fun _ _ =>
  inferInstanceAs (Decidable (_ ∨ _))

instance : DecidableRel rank_by_ts := fun _ _ =>
  inferInstanceAs (Decidable (_ ∨ _))

/-- Per-entry candidate of `recall`'s ranking loop (lines 1137-1192):
`none` when the entry is filtered out (scope/key/tags or the prune rule),
otherwise `(score, updated_ts, entry)`. -/
def recall_candidate (key : String) (tags : List String)
    (queryTerms : List String) (queryVector : List (String × ℚ))
    (queryLower : String) (ftsMap : String → ℚ) (scope ru : String)
    (now : Nat) (e : MemoryEntry) : Option (ℚ × Nat × MemoryEntry) :=
  if !matches_scope e scope ru then none
  else
    let entryKey := canonicalize_key e.key
    let entryTags := normalize_tags (some e.tags)
    if key ≠ "" && entryKey ≠ key then none
    else if !tags.isEmpty && !tags.all (fun t => entryTags.contains t) then none
    else
      let entryId := normalize_text e.id 120
      let sFact := lowerStr (normalize_text e.fact MAX_FACT_LEN)
      let sKey := lowerStr entryKey
      let sTags := entryTags.map lowerStr
      let blob := entry_search_blob e
      let score : ℚ := (e.importance : ℚ) * (22 / 10)
      let score := if key ≠ "" && entryKey = key then score + 85 else score
      let score := if !tags.isEmpty then score + 12 else score
      let score := score + ftsMap entryId
      let ageDays : ℚ := max 0 (((now : ℚ) - (e.updated_at : ℚ)) / 86400)
      let score := score + max 0 (8 - min 8 (ageDays * (8 / 100)))
      if queryTerms.isEmpty then some (score, e.updated_at, e)
      else
        let hit := queryTerms.foldl
          (fun (st : ℚ × Nat) term =>
            let st := if str_contains_sub term sKey then (st.1 + 18, st.2 + 1) else st
            let st := if str_contains_sub term sFact then (st.1 + 12, st.2 + 1) else st
            let st := if sTags.any (fun tag => str_contains_sub term tag) then
                (st.1 + 10, st.2 + 1) else st
            if str_contains_sub term blob then (st.1 + 6, st.2 + 1) else st)
          (score, 0)
        let semanticScore := cosine_similarity queryVector (entry_vector e)
        let score := hit.1 + semanticScore * 28
        let fuzzyTarget : String :=
          ⟨stripWs (sFact ++ " " ++ sKey ++ " " ++ String.intercalate " " sTags).data⟩
        let fuzzyScore := fuzzy_similarity queryLower fuzzyTarget
        let score := score + fuzzyScore * 12
        let ftsBonus := ftsMap entryId
        if hit.2 = 0 && semanticScore < 8 / 100 && fuzzyScore < 26 / 100 &&
            ftsBonus ≤ 0 then none
        else some (score, e.updated_at, e)

/-- `recall` (lines 1112-1226).  `ftsBonus` models
`_search_fts_bonus_map` (host/FTS5-dependent); per line 983 it is empty when
there are no base query terms. -/
def «recall» (args : RecallArgs) (rt : RuntimeInfo) (now : Nat)
    (ftsBonus : String → ℚ) (requestId : String)
    (entries : List MemoryEntry) : RecallResult :=
  let query0 := normalize_text args.query 220
  let query := if looks_like_generic_recall_query query0 then "" else query0
  let key0 := canonicalize_key args.key
  let tags := normalize_tags args.tags
  let scope := resolve_scope args.scope
  let limit := safe_int args.limit 5 1 20
  let baseQueryTerms := tokenize_query query
  let queryTerms := expand_query_terms baseQueryTerms
  let key := if key0 = "" then infer_key_from_terms (baseQueryTerms ++ queryTerms)
             else key0
  let ru := normalize_text rt.user_name 96
  let includeUser := scope = "all"
  let ftsMap : String → ℚ := if baseQueryTerms.isEmpty then (fun _ => 0) else ftsBonus
  let queryVector := build_sparse_vector
    (String.intercalate " " (if queryTerms.isEmpty then baseQueryTerms else queryTerms))
  let queryLower := lowerStr query
  let ranked := entries.filterMap
    (recall_candidate key tags queryTerms queryVector queryLower ftsMap scope ru now)
  let ranked :=
    if !queryTerms.isEmpty || key ≠ "" || !tags.isEmpty then
      List.insertionSort rank_by_score ranked
    else List.insertionSort rank_by_ts ranked
  let selected := (ranked.take limit.toNat).map (fun x => x.2.2)
  let memories := selected.map (fun e => public_memory e includeUser)
  let results := memories.map (fun m =>
    (m.fact,
     String.intercalate ", "
       ([(if m.key ≠ "" then "key=" ++ m.key else ""),
         (if !m.tags.isEmpty then "tags=" ++ String.intercalate "," m.tags else ""),
         "importance=" ++ toString m.importance,
         (match m.user_name with
          | some u => if includeUser && u ≠ "" then "user=" ++ u else ""
          | none => ""),
         "updated_at=" ++ toString m.updated_at].filter (fun p => p ≠ ""))))
  { query := query, key := key, tags := tags, scope := scope,
    count := memories.length, memories := memories, results := results,
    request_id := requestId }

structure ForgetArgs where
  id : String := ""
  key : String := ""
  query : String := ""
  scope : String := ""
  all_matching : Bool := false
deriving Repr, DecidableEq

structure ForgetResult where
  removed_count : Nat
  removed : List PublicMemory
  remaining_count : Nat
  scope : String
  request_id : String
  /-- `some (rows, mirror)` iff `_save_entries` ran (a write occurred). -/
  write : Option (List MemoryEntry × List MemoryEntry) := none
deriving Repr, DecidableEq

/-- The per-entry match decision of `forget` (lines 1253-1265). -/
def forget_matches (targetId key : String) (baseQueryTerms expandedQueryTerms : List String)
    (e : MemoryEntry) : Bool :=
  let entryId := normalize_text e.id 120
  let entryKey := canonicalize_key e.key
  let blob := entry_search_blob e
  let m1 := targetId ≠ "" && entryId == targetId
  let m2 := key ≠ "" && entryKey == key
  let queryHit :=
    if !baseQueryTerms.isEmpty &&
        baseQueryTerms.all (fun t => str_contains_sub t blob) then true
    else !expandedQueryTerms.isEmpty &&
      expandedQueryTerms.any (fun t => str_contains_sub t blob)
  m1 || m2 || queryHit

/-- Loop body of `forget` (lines 1248-1270): route each entry to `kept` or
`removed`. -/
def forget_step (targetId key : String) (baseQueryTerms expandedQueryTerms : List String)
    (scope ru : String) (allMatching : Bool)
    (acc : List MemoryEntry × List MemoryEntry) (e : MemoryEntry) :
    List MemoryEntry × List MemoryEntry :=
  if !matches_scope e scope ru then (acc.1 ++ [e], acc.2)
  else if forget_matches targetId key baseQueryTerms expandedQueryTerms e &&
      (allMatching || acc.2.isEmpty) then (acc.1, acc.2 ++ [e])
  else (acc.1 ++ [e], acc.2)

/-- `forget` (lines 1229-1281). -/
def forget (args : ForgetArgs) (rt : RuntimeInfo) (now : Nat)
    (fresh : Nat → String) (requestId : String)
    (entries : List MemoryEntry) : Except String ForgetResult :=
  let targetId := normalize_text args.id 120
  let key := canonicalize_key args.key
  let query := normalize_text args.query 220
  let scope := resolve_scope args.scope
  let baseQueryTerms := tokenize_query query
  let expandedQueryTerms := expand_query_terms baseQueryTerms
  if targetId = "" && key = "" && baseQueryTerms.isEmpty then
    .error "at least one of id, key, or query is required"
  else
    let ru := normalize_text rt.user_name 96
    let includeUser := scope = "all"
    let split := entries.foldl
      (forget_step targetId key baseQueryTerms expandedQueryTerms scope ru
        args.all_matching)
      ([], [])
    if split.2.isEmpty then
      .ok { removed_count := 0, removed := [],
            remaining_count := entries.length, scope := scope,
            request_id := requestId, write := none }
    else
      let cleaned := prepare_entries now fresh split.1
      .ok { removed_count := split.2.length,
            removed := (split.2.take 20).map (fun e => public_memory e includeUser),
            remaining_count := cleaned.length, scope := scope,
            request_id := requestId,
            write := some (cleaned, cleaned.take JSON_MIRROR_MAX) }

/-! ## Spec-side predicate for the identity-matcher claim

The non-fuzzy identity rules (exact equality, normalized equality,
substring of length ≥ 4, token overlap ≥ 0.5), written over the embedded
functions.  Used to state the amended symmetry claim. -/

def identity_non_fuzzy_rule (x y : String) : Prop :=
  x ≠ "" ∧ y ≠ "" ∧
    (x = y ∨
      (normalize_user_identity x ≠ "" ∧ normalize_user_identity y ≠ "" ∧
        (normalize_user_identity x = normalize_user_identity y ∨
          (4 ≤ (normalize_user_identity x).length ∧
            str_contains_sub (normalize_user_identity x) (normalize_user_identity y) = true) ∨
          (4 ≤ (normalize_user_identity y).length ∧
            str_contains_sub (normalize_user_identity y) (normalize_user_identity x) = true) ∨
          (split_user_identity x ≠ [] ∧ split_user_identity y ≠ [] ∧
            (split_user_identity x).filter
              (fun t => (split_user_identity y).contains t) ≠ [] ∧
            min (split_user_identity x).length (split_user_identity y).length ≤
              2 * ((split_user_identity x).filter
                (fun t => (split_user_identity y).contains t)).length))))

instance (x y : String) : Decidable (identity_non_fuzzy_rule x y) := by
  unfold identity_non_fuzzy_rule
  infer_instance

/-! ## Concrete fixtures used by witnesses and counterexamples -/

/-- A deterministic id supply standing in for `uuid.uuid4()`. -/
def fresh_ids : Nat → String := fun n => "mem-f" ++ toString n

def rt_alice : RuntimeInfo := { user_name := "Alice", chat_id := "c1" }

def rt_bob : RuntimeInfo := { user_name := "Bob", chat_id := "c2" }

def rt_anon : RuntimeInfo := { user_name := "", chat_id := "" }

def entry_bob_smith : MemoryEntry :=
  { id := "mem-1", key := "", fact := "likes tea", tags := [], importance := 3,
    created_at := 10, updated_at := 10, user_name := "Bob Smith", chat_id := "c0" }

def entry_alpha_cat : MemoryEntry :=
  { id := "mem-2", key := "", fact := "alpha cat", tags := [], importance := 3,
    created_at := 5, updated_at := 5, user_name := "", chat_id := "" }

def entry_alice_owned : MemoryEntry :=
  { id := "mem-3", key := "", fact := "owned by a named user", tags := [],
    importance := 3, created_at := 5, updated_at := 5, user_name := "alice",
    chat_id := "" }

def entry_fact_one : MemoryEntry :=
  { id := "m1", key := "", fact := "fact one", tags := [], importance := 3,
    created_at := 1, updated_at := 30, user_name := "", chat_id := "" }

def entry_fact_two : MemoryEntry :=
  { id := "m2", key := "", fact := "fact two", tags := [], importance := 4,
    created_at := 2, updated_at := 40, user_name := "", chat_id := "" }

/-- A persisted record whose `updated_at` precedes its `created_at`. -/
def raw_time_skew : RawEntry :=
  { id := "mem-9", fact := "x", created_at := some 100, updated_at := some 50 }

/-- A persisted record with no `updated_at`. -/
def raw_no_updated : RawEntry :=
  { id := "mem-7", fact := "y", created_at := some 33 }

/-- `_normalize_memory_entry raw_no_updated 5 "mem-w"`. -/
def entry_c7 : MemoryEntry :=
  { id := "mem-7", key := "", fact := "y", tags := [], importance := 3,
    created_at := 33, updated_at := 33, user_name := "", chat_id := "" }

/-- A generic recall request with no key, tags, or scope. -/
def args_generic : RecallArgs := { query := "what do you remember" }

/-- An FTS bonus map for a runtime with no FTS index hits. -/
def zero_fts : String → ℚ := fun _ => 0

/-! # Lemmas

Batteries marks `Rat.add`/`Rat.mul`/`Rat.inv`/`Rat.sub` `@[irreducible]`,
which stops `decide`-style evaluation of the rational score arithmetic;
unseal them for this development (the kernel itself ignores reducibility
attributes, so checked proofs are unaffected). -/

set_option allowUnsafeReducibility true

attribute [local semireducible] Rat.add Rat.mul Rat.inv Rat.sub

/-! ## Runs, collapse, and idempotence of `_normalize_text` -/

theorem foldr_runStep_word_cons (keep : Char → Bool) (w : List Char)
    (hw : ∀ c ∈ w, keep c = true) (a : List Char) (rest : List (List Char)) :
    w.foldr (runStep keep) (a :: rest) = (w ++ a) :: rest := by
  induction w with
  | nil => rfl
  | cons c w ih =>
    have hc : keep c = true := hw c (List.mem_cons_self c w)
    have hw' : ∀ d ∈ w, keep d = true := fun d hd => hw d (List.mem_cons_of_mem c hd)
    simp [List.foldr_cons, ih hw', runStep, hc]

theorem foldr_runStep_word_nil (keep : Char → Bool) (w : List Char)
    (hw : ∀ c ∈ w, keep c = true) :
    w.foldr (runStep keep) [] = if w.isEmpty then [] else [w] := by
  cases w with
  | nil => rfl
  | cons c w =>
    have hc : keep c = true := hw c (List.mem_cons_self c w)
    have hw' : ∀ d ∈ w, keep d = true := fun d hd => hw d (List.mem_cons_of_mem c hd)
    cases w with
    | nil => simp [runStep, hc]
    | cons d w' =>
      have : (d :: w').foldr (runStep keep) [] = [d :: w'] := by
        rw [foldr_runStep_word_nil keep (d :: w') hw']
        simp
      simp [List.foldr_cons, this, runStep, hc]

theorem rawRuns_chars (keep : Char → Bool) (l : List Char) :
    ∀ w ∈ l.foldr (runStep keep) [], ∀ c ∈ w, keep c = true := by
  induction l with
  | nil => simp
  | cons c l ih =>
    intro w hw d hd
    simp only [List.foldr_cons, runStep] at hw
    by_cases hc : keep c = true
    · rw [if_pos hc] at hw
      rcases h : l.foldr (runStep keep) [] with - | ⟨a, rest⟩
      · rw [h] at hw
        simp only [List.mem_singleton] at hw
        subst hw
        rcases List.mem_singleton.mp hd with rfl
        exact hc
      · rw [h] at hw
        rcases List.mem_cons.mp hw with rfl | hw
        · rcases List.mem_cons.mp hd with rfl | hd
          · exact hc
          · exact ih a (h ▸ List.mem_cons_self a rest) d hd
        · exact ih w (h ▸ List.mem_cons_of_mem a hw) d hd
    · rw [if_neg hc] at hw
      rcases List.mem_cons.mp hw with rfl | hw
      · exact absurd hd (List.not_mem_nil d)
      · exact ih w hw d hd

theorem runsBy_sound (keep : Char → Bool) (l : List Char) :
    ∀ w ∈ runsBy keep l, w ≠ [] ∧ ∀ c ∈ w, keep c = true := by
  intro w hw
  rw [runsBy, List.mem_filter] at hw
  refine ⟨by simpa [List.isEmpty_iff] using hw.2, rawRuns_chars keep l w hw.1⟩

theorem intercalate_cons₂ (sep : Char) (w w' : List Char) (ws : List (List Char)) :
    List.intercalate [sep] (w :: w' :: ws) = w ++ sep :: List.intercalate [sep] (w' :: ws) := by
  simp [List.intercalate, List.intersperse]

theorem runsBy_intercalate (keep : Char → Bool) (sep : Char) (hsep : keep sep = false)
    (ws : List (List Char)) (hw : ∀ w ∈ ws, w ≠ [] ∧ ∀ c ∈ w, keep c = true) :
    runsBy keep (List.intercalate [sep] ws) = ws := by
  induction ws with
  | nil => simp [runsBy, List.intercalate]
  | cons w ws ih =>
    obtain ⟨hne, hchars⟩ := hw w (List.mem_cons_self w ws)
    have hw' : ∀ v ∈ ws, v ≠ [] ∧ ∀ c ∈ v, keep c = true :=
      fun v hv => hw v (List.mem_cons_of_mem w hv)
    cases ws with
    | nil =>
      have h1 : List.intercalate [sep] [w] = w := by simp [List.intercalate]
      rw [h1, runsBy, foldr_runStep_word_nil keep w hchars]
      cases w with
      | nil => exact absurd rfl hne
      | cons c w0 => simp
    | cons w' ws' =>
      rw [intercalate_cons₂, runsBy, List.foldr_append]
      have hsepstep :
          (sep :: List.intercalate [sep] (w' :: ws')).foldr (runStep keep) [] =
            [] :: (List.intercalate [sep] (w' :: ws')).foldr (runStep keep) [] := by
        simp [List.foldr_cons, runStep, hsep]
      rw [hsepstep, foldr_runStep_word_cons keep w hchars]
      cases w with
      | nil => exact absurd rfl hne
      | cons c w0 =>
        have : runsBy keep (List.intercalate [sep] (w' :: ws')) = w' :: ws' := ih hw'
        rw [runsBy] at this
        simp only [List.append_nil, List.filter_cons, this]
        simp

theorem wordsOf_sound (l : List Char) :
    ∀ w ∈ wordsOf l, w ≠ [] ∧ ∀ c ∈ w, isWsChar c = false := by
  intro w hw
  obtain ⟨h1, h2⟩ := runsBy_sound _ l w hw
  exact ⟨h1, fun c hc => by simpa using h2 c hc⟩

theorem wordsOf_intercalate (vs : List (List Char))
    (hvs : ∀ v ∈ vs, v ≠ [] ∧ ∀ c ∈ v, isWsChar c = false) :
    wordsOf (List.intercalate [' '] vs) = vs := by
  rw [wordsOf]
  exact runsBy_intercalate _ ' ' (by decide) vs
    (fun v hv => ⟨(hvs v hv).1, fun c hc => by simp [(hvs v hv).2 c hc]⟩)

theorem wordsOf_collapseWs (l : List Char) : wordsOf (collapseWs l) = wordsOf l := by
  rw [collapseWs]
  exact wordsOf_intercalate (wordsOf l) (wordsOf_sound l)

theorem collapseWs_idem (l : List Char) : collapseWs (collapseWs l) = collapseWs l := by
  rw [collapseWs, wordsOf_collapseWs, collapseWs]

theorem dropWhile_of_all_neg {α : Type} {p : α → Bool} {l : List α}
    (h : ∀ c ∈ l, p c = false) : l.dropWhile p = l := by
  cases l with
  | nil => rfl
  | cons a t => rw [List.dropWhile_cons, h a (List.mem_cons_self a t)]; simp

theorem rstripWs_of_no_ws {l : List Char} (h : ∀ c ∈ l, isWsChar c = false) :
    rstripWs l = l := by
  rw [rstripWs, dropWhile_of_all_neg (fun c hc => h c (List.mem_reverse.mp hc)),
    List.reverse_reverse]

theorem rstripWs_append (A B : List Char) :
    rstripWs (A ++ B) = if rstripWs B = [] then rstripWs A else A ++ rstripWs B := by
  rw [rstripWs, List.reverse_append, List.dropWhile_append]
  by_cases h : (B.reverse.dropWhile (fun c => isWsChar c)).isEmpty = true
  · rw [if_pos h]
    have hB : rstripWs B = [] := by
      rw [List.isEmpty_iff] at h
      rw [rstripWs, h]
      rfl
    rw [if_pos hB]
    rfl
  · rw [if_neg h]
    have hB : rstripWs B ≠ [] := by
      intro hc
      rw [rstripWs] at hc
      have : B.reverse.dropWhile (fun c => isWsChar c) = [] := by
        have := congrArg List.reverse hc
        simpa using this
      rw [List.isEmpty_iff] at h
      exact h this
    rw [if_neg hB, List.reverse_append, List.reverse_reverse]
    rfl

theorem length_rstripWs_le (l : List Char) : (rstripWs l).length ≤ l.length := by
  rw [rstripWs]
  calc ((l.reverse.dropWhile (fun c => isWsChar c)).reverse).length
      = (l.reverse.dropWhile (fun c => isWsChar c)).length := List.length_reverse _
    _ ≤ l.reverse.length := (List.dropWhile_sublist _).length_le
    _ = l.length := List.length_reverse _

theorem rstripWs_single_space : rstripWs [' '] = [] := by decide

/-- The word list of a collapsed string survives `take`-and-`rstrip`: the
result is again a single-space intercalation of whitespace-free words. -/
theorem rstrip_take_intercalate (ws : List (List Char))
    (hw : ∀ w ∈ ws, w ≠ [] ∧ ∀ c ∈ w, isWsChar c = false) (n : Nat) :
    ∃ vs, (∀ v ∈ vs, v ≠ [] ∧ ∀ c ∈ v, isWsChar c = false) ∧
      rstripWs ((List.intercalate [' '] ws).take n) = List.intercalate [' '] vs := by
  induction ws generalizing n with
  | nil => exact ⟨[], by simp, by simp [List.intercalate, rstripWs]⟩
  | cons w ws ih =>
    obtain ⟨hne, hchars⟩ := hw w (List.mem_cons_self w ws)
    have hw' : ∀ v ∈ ws, v ≠ [] ∧ ∀ c ∈ v, isWsChar c = false :=
      fun v hv => hw v (List.mem_cons_of_mem w hv)
    have htakeW : ∀ m : Nat, rstripWs (w.take m) = w.take m := fun m =>
      rstripWs_of_no_ws (fun c hc => hchars c ((List.take_sublist m w).mem hc))
    have hpartial : ∀ m : Nat, ∃ vs,
        (∀ v ∈ vs, v ≠ [] ∧ ∀ c ∈ v, isWsChar c = false) ∧
          rstripWs (w.take m) = List.intercalate [' '] vs := by
      intro m
      by_cases h0 : w.take m = []
      · exact ⟨[], by simp, by rw [htakeW, h0]; rfl⟩
      · refine ⟨[w.take m], ?_, ?_⟩
        · intro v hv
          simp at hv
          subst hv
          exact ⟨h0, fun c hc => hchars c ((List.take_sublist m w).mem hc)⟩
        · rw [htakeW]
          simp [List.intercalate]
    cases ws with
    | nil =>
      have h1 : List.intercalate [' '] [w] = w := by simp [List.intercalate]
      rw [h1]
      exact hpartial n
    | cons w' ws' =>
      rw [intercalate_cons₂]
      by_cases hn : n ≤ w.length
      · rw [List.take_append_of_le_length hn]
        exact hpartial n
      · push_neg at hn
        rw [List.take_append_eq_append_take, List.take_of_length_le (le_of_lt hn)]
        obtain ⟨m, hm⟩ : ∃ m, n - w.length = m + 1 :=
          ⟨n - w.length - 1, by omega⟩
        rw [hm, List.take_succ_cons]
        obtain ⟨vs', hvs', heq⟩ := ih hw' m
        rw [rstripWs_append w (' ' :: List.take m (List.intercalate [' '] (w' :: ws')))]
        have hsp : rstripWs (' ' :: List.take m (List.intercalate [' '] (w' :: ws'))) =
            if rstripWs (List.take m (List.intercalate [' '] (w' :: ws'))) = [] then []
            else ' ' :: rstripWs (List.take m (List.intercalate [' '] (w' :: ws'))) := by
          have := rstripWs_append [' ']
            (List.take m (List.intercalate [' '] (w' :: ws')))
          simp only [List.singleton_append] at this
          rw [this, rstripWs_single_space]
        by_cases hY : rstripWs (List.take m (List.intercalate [' '] (w' :: ws'))) = []
        · rw [hsp, if_pos hY, if_pos rfl]
          refine ⟨[w], ?_, ?_⟩
          · intro v hv
            simp at hv
            subst hv
            exact ⟨hne, hchars⟩
          · rw [rstripWs_of_no_ws hchars]
            simp [List.intercalate]
        · rw [hsp, if_neg hY]
          have hcons : (' ' :: rstripWs (List.take m (List.intercalate [' '] (w' :: ws')))) ≠ [] := by
            simp
          rw [if_neg hcons]
          have hvs'ne : vs' ≠ [] := by
            intro hc
            rw [hc] at heq
            simp [List.intercalate] at heq
            exact hY heq
          cases vs' with
          | nil => exact absurd rfl hvs'ne
          | cons v vs'' =>
            refine ⟨w :: v :: vs'', ?_, ?_⟩
            · intro u hu
              rcases List.mem_cons.mp hu with rfl | hu
              · exact ⟨hne, hchars⟩
              · exact hvs' u hu
            · rw [heq, intercalate_cons₂]

theorem string_length_data (l : List Char) : (⟨l⟩ : String).length = l.length := rfl

/-- `_normalize_text` applied to any string already of the form
`⟨collapseWs l⟩` with length ≤ cap (or cap 0) returns it unchanged. -/
theorem normalize_text_of_collapsed (l : List Char) (n : Nat)
    (hcol : collapseWs l = l) (hlen : ¬(n > 0 ∧ l.length > n)) :
    normalize_text (⟨l⟩ : String) n = ⟨l⟩ := by
  rw [normalize_text]
  have hdata : (⟨l⟩ : String).data = l := rfl
  rw [hdata, hcol]
  have hcond : (decide (n > 0) && decide (l.length > n)) = false := by
    rcases not_and_or.mp hlen with h | h <;> simp [h]
  rw [hcond]
  simp

/-- `_normalize_text` is idempotent (at the same cap). -/
theorem normalize_text_idem (v : String) (n : Nat) :
    normalize_text (normalize_text v n) n = normalize_text v n := by
  by_cases h : (decide (n > 0) && decide ((collapseWs v.data).length > n)) = true
  · have h1 : normalize_text v n = ⟨rstripWs ((collapseWs v.data).take n)⟩ := by
      rw [normalize_text, if_pos h]
    obtain ⟨vs, hvs, heq⟩ :=
      rstrip_take_intercalate (wordsOf v.data) (wordsOf_sound v.data) n
    have heq' : rstripWs ((collapseWs v.data).take n) = List.intercalate [' '] vs := heq
    have hcol : collapseWs (rstripWs ((collapseWs v.data).take n)) =
        rstripWs ((collapseWs v.data).take n) := by
      rw [heq', collapseWs, wordsOf_intercalate vs hvs]
    have hlen : (rstripWs ((collapseWs v.data).take n)).length ≤ n := by
      calc (rstripWs ((collapseWs v.data).take n)).length
          ≤ ((collapseWs v.data).take n).length := length_rstripWs_le _
        _ ≤ n := by rw [List.length_take]; exact min_le_left _ _
    rw [h1]
    exact normalize_text_of_collapsed _ n hcol (by omega)
  · have h1 : normalize_text v n = ⟨collapseWs v.data⟩ := by
      rw [normalize_text, if_neg h]
    have hnot : ¬(n > 0 ∧ (collapseWs v.data).length > n) := by
      intro hc
      exact h (by simp [hc.1, hc.2])
    rw [h1]
    exact normalize_text_of_collapsed _ n (collapseWs_idem v.data) hnot

/-! ## `replace_first` -/

theorem replace_first_none_of (p : MemoryEntry → Bool) (f : MemoryEntry → MemoryEntry) :
    ∀ l : List MemoryEntry, (∀ e ∈ l, p e = false) → replace_first p f l = none := by
  intro l
  induction l with
  | nil => intro _; rfl
  | cons e rest ih =>
    intro h
    rw [replace_first]
    rw [if_neg (by simp [h e (List.mem_cons_self e rest)])]
    rw [ih (fun x hx => h x (List.mem_cons_of_mem e hx))]

theorem replace_first_none_forall (p : MemoryEntry → Bool) (f : MemoryEntry → MemoryEntry) :
    ∀ l : List MemoryEntry, replace_first p f l = none → ∀ e ∈ l, p e = false := by
  intro l
  induction l with
  | nil => intro _ e he; exact absurd he (List.not_mem_nil e)
  | cons e rest ih =>
    intro h x hx
    rw [replace_first] at h
    by_cases hp : p e = true
    · rw [if_pos hp] at h; exact absurd h (by simp)
    · rw [if_neg hp] at h
      rcases List.mem_cons.mp hx with rfl | hx
      · exact Bool.not_eq_true _ ▸ (by simpa using hp)
      · cases hr : replace_first p f rest with
        | some y =>
          obtain ⟨o, n', l'⟩ := y
          rw [hr] at h
          exact absurd h (by simp)
        | none => exact ih hr x hx

theorem replace_first_some_spec (p : MemoryEntry → Bool) (f : MemoryEntry → MemoryEntry) :
    ∀ (l : List MemoryEntry) (o n' : MemoryEntry) (l' : List MemoryEntry),
      replace_first p f l = some (o, n', l') →
      o ∈ l ∧ p o = true ∧ n' = f o ∧ l'.length = l.length ∧
        ∀ y ∈ l', y = n' ∨ y ∈ l := by
  intro l
  induction l with
  | nil => intro o n' l' h; exact absurd h (by simp [replace_first])
  | cons e rest ih =>
    intro o n' l' h
    rw [replace_first] at h
    by_cases hp : p e = true
    · rw [if_pos hp] at h
      simp only [Option.some.injEq, Prod.mk.injEq] at h
      obtain ⟨rfl, rfl, rfl⟩ := h
      refine ⟨List.mem_cons_self e rest, hp, rfl, by simp, ?_⟩
      intro y hy
      rcases List.mem_cons.mp hy with rfl | hy
      · exact Or.inl rfl
      · exact Or.inr (List.mem_cons_of_mem e hy)
    · rw [if_neg hp] at h
      cases hr : replace_first p f rest with
      | none => rw [hr] at h; exact absurd h (by simp)
      | some y =>
        obtain ⟨o₂, n₂, l₂⟩ := y
        rw [hr] at h
        simp only [Option.some.injEq, Prod.mk.injEq] at h
        obtain ⟨rfl, rfl, rfl⟩ := h
        obtain ⟨h1, h2, h3, h4, h5⟩ := ih o₂ n₂ l₂ hr
        refine ⟨List.mem_cons_of_mem e h1, h2, h3, by simp [h4], ?_⟩
        intro y hy
        rcases List.mem_cons.mp hy with rfl | hy
        · exact Or.inr (List.mem_cons_self y rest)
        · rcases h5 y hy with hl | hl
          · exact Or.inl hl
          · exact Or.inr (List.mem_cons_of_mem e hl)

theorem replace_first_some_of (p : MemoryEntry → Bool) (f : MemoryEntry → MemoryEntry)
    (l : List MemoryEntry) (h : ∃ e ∈ l, p e = true) :
    ∃ o n' l', replace_first p f l = some (o, n', l') := by
  cases hr : replace_first p f l with
  | some y => obtain ⟨o, n', l'⟩ := y; exact ⟨o, n', l', rfl⟩
  | none =>
    obtain ⟨e, he, hpe⟩ := h
    exact absurd hpe (by simp [replace_first_none_forall p f l hr e he])

/-! ## `_normalize_memory_entry` inversion and `_prepare_entries` -/

theorem normalize_memory_entry_inv (raw : RawEntry) (now : Nat) (fid : String)
    (e : MemoryEntry) (h : normalize_memory_entry raw now fid = some e) :
    e.fact = normalize_text raw.fact MAX_FACT_LEN ∧ e.fact ≠ "" ∧
      e.user_name = normalize_text raw.user_name 96 ∧
      e.chat_id = normalize_text raw.chat_id 96 ∧
      e.key = canonicalize_key raw.key ∧ e.tags = normalize_tags raw.tags ∧
      e.importance = safe_int raw.importance 3 1 5 ∧
      e.created_at = raw.created_at.getD now ∧
      e.updated_at = raw.updated_at.getD (raw.created_at.getD now) := by
  rw [normalize_memory_entry] at h
  by_cases hf : normalize_text raw.fact MAX_FACT_LEN = ""
  · rw [if_pos hf] at h; exact absurd h (by simp)
  · rw [if_neg hf] at h
    have h' := Option.some.inj h
    subst h'
    exact ⟨rfl, hf, rfl, rfl, rfl, rfl, rfl, rfl, rfl⟩

theorem normalize_entry_to_raw (e : MemoryEntry) (now : Nat) (fid : String)
    (hfix : normalize_text e.fact MAX_FACT_LEN = e.fact) (hne : e.fact ≠ "") :
    normalize_memory_entry (entry_to_raw e) now fid =
      some { id := (if normalize_text e.id 120 = "" then fid else normalize_text e.id 120),
             key := canonicalize_key e.key, fact := e.fact,
             tags := normalize_tags (some e.tags),
             importance := safe_int (some e.importance) 3 1 5,
             created_at := e.created_at, updated_at := e.updated_at,
             user_name := normalize_text e.user_name 96,
             chat_id := normalize_text e.chat_id 96 } := by
  rw [normalize_memory_entry]
  have hraw : (entry_to_raw e).fact = e.fact := rfl
  rw [hraw, hfix, if_neg hne]
  rfl

theorem prepareGo_length_le (now : Nat) (fresh : Nat → String) :
    ∀ (l : List MemoryEntry) (cap k : Nat) (seen : List String),
      (prepareGo now fresh cap k seen l).length ≤ cap := by
  intro l
  induction l with
  | nil => intro cap k seen; cases cap <;> simp [prepareGo]
  | cons e rest ih =>
    intro cap k seen
    cases cap with
    | zero => simp [prepareGo]
    | succ c =>
      rw [prepareGo]
      cases h : normalize_memory_entry (entry_to_raw e) now (fresh (2 * k)) with
      | none => simpa using ih (c + 1) (k + 1) seen
      | some ne =>
        simp only [List.length_cons]
        exact Nat.succ_le_succ (ih c (k + 1) _)

theorem prepareGo_length (now : Nat) (fresh : Nat → String) :
    ∀ (l : List MemoryEntry) (cap k : Nat) (seen : List String),
      (∀ e ∈ l, normalize_text e.fact MAX_FACT_LEN = e.fact ∧ e.fact ≠ "") →
      (prepareGo now fresh cap k seen l).length = min l.length cap := by
  intro l
  induction l with
  | nil => intro cap k seen _; cases cap <;> simp [prepareGo]
  | cons e rest ih =>
    intro cap k seen hfacts
    obtain ⟨hfix, hne⟩ := hfacts e (List.mem_cons_self e rest)
    have hrest := fun x hx => hfacts x (List.mem_cons_of_mem e hx)
    cases cap with
    | zero => simp [prepareGo]
    | succ c =>
      rw [prepareGo, normalize_entry_to_raw e now (fresh (2 * k)) hfix hne]
      simp only [List.length_cons]
      rw [ih c (k + 1) _ hrest]
      omega

theorem prepareGo_mem_src (now : Nat) (fresh : Nat → String) :
    ∀ (l : List MemoryEntry) (cap k : Nat) (seen : List String),
      ∀ x ∈ prepareGo now fresh cap k seen l,
        ∃ e ∈ l, x.fact = normalize_text e.fact MAX_FACT_LEN ∧ x.fact ≠ "" ∧
          x.user_name = normalize_text e.user_name 96 ∧
          x.created_at = e.created_at ∧ x.updated_at = e.updated_at ∧
          x.importance = safe_int (some e.importance) 3 1 5 := by
  intro l
  induction l with
  | nil => intro cap k seen x hx; rw [prepareGo] at hx; exact absurd hx (List.not_mem_nil x)
  | cons e rest ih =>
    intro cap k seen x hx
    cases cap with
    | zero => rw [prepareGo] at hx; exact absurd hx (List.not_mem_nil x)
    | succ c =>
      rw [prepareGo] at hx
      cases h : normalize_memory_entry (entry_to_raw e) now (fresh (2 * k)) with
      | none =>
        rw [h] at hx
        obtain ⟨f, hf, hrel⟩ := ih (c + 1) (k + 1) seen x hx
        exact ⟨f, List.mem_cons_of_mem e hf, hrel⟩
      | some ne =>
        rw [h] at hx
        obtain ⟨hfact, hne', huser, hchat, -, -, himp, hcre, hupd⟩ :=
          normalize_memory_entry_inv _ now _ ne h
        rcases List.mem_cons.mp hx with rfl | hx
        · refine ⟨e, List.mem_cons_self e rest, ?_⟩
          refine ⟨hfact, hne', huser, ?_, ?_, ?_⟩
          · simpa using hcre
          · simpa using hupd
          · simpa using himp
        · obtain ⟨f, hf, hrel⟩ := ih c (k + 1) _ x hx
          exact ⟨f, List.mem_cons_of_mem e hf, hrel⟩

theorem prepareGo_complete (now : Nat) (fresh : Nat → String) :
    ∀ (l : List MemoryEntry) (cap k : Nat) (seen : List String),
      (∀ e ∈ l, normalize_text e.fact MAX_FACT_LEN = e.fact ∧ e.fact ≠ "") →
      l.length ≤ cap →
      ∀ e ∈ l, ∃ x ∈ prepareGo now fresh cap k seen l,
        x.fact = e.fact ∧ x.user_name = normalize_text e.user_name 96 := by
  intro l
  induction l with
  | nil => intro cap k seen _ _ e he; exact absurd he (List.not_mem_nil e)
  | cons e0 rest ih =>
    intro cap k seen hfacts hlen e he
    obtain ⟨hfix, hne⟩ := hfacts e0 (List.mem_cons_self e0 rest)
    have hrest := fun x hx => hfacts x (List.mem_cons_of_mem e0 hx)
    cases cap with
    | zero => simp at hlen
    | succ c =>
      rw [prepareGo, normalize_entry_to_raw e0 now (fresh (2 * k)) hfix hne]
      rcases List.mem_cons.mp he with rfl | he
      · refine ⟨_, List.mem_cons_self _ _, ?_, ?_⟩ <;> rfl
      · obtain ⟨x, hx, hrel⟩ := ih c (k + 1) _ hrest (by simpa using hlen) e he
        exact ⟨x, List.mem_cons_of_mem _ hx, hrel⟩

/-! ## Sort-relation facts -/

instance : IsTotal MemoryEntry sort_key_ge :=
  ⟨fun a b => by
    rw [sort_key_ge, sort_key_ge, entry_sort_key, entry_sort_key]
    omega⟩

instance : IsTrans MemoryEntry sort_key_ge :=
  ⟨fun a b c hab hbc => by
    rw [sort_key_ge, entry_sort_key, entry_sort_key] at *
    omega⟩

theorem clamp_importance_mono {i j : Int} (h : i ≤ j) :
    safe_int (some i) 3 1 5 ≤ safe_int (some j) 3 1 5 := by
  simp only [safe_int]
  exact max_le_max le_rfl (min_le_min le_rfl h)

theorem prepareGo_pairwise (now : Nat) (fresh : Nat → String) :
    ∀ (l : List MemoryEntry) (cap k : Nat) (seen : List String),
      l.Pairwise sort_key_ge →
      (prepareGo now fresh cap k seen l).Pairwise sort_key_ge := by
  intro l
  induction l with
  | nil => intro cap k seen _; rw [prepareGo]; exact List.Pairwise.nil
  | cons e rest ih =>
    intro cap k seen hp
    obtain ⟨hhead, htail⟩ := List.pairwise_cons.mp hp
    cases cap with
    | zero => rw [prepareGo]; exact List.Pairwise.nil
    | succ c =>
      rw [prepareGo]
      cases h : normalize_memory_entry (entry_to_raw e) now (fresh (2 * k)) with
      | none => exact ih (c + 1) (k + 1) seen htail
      | some ne =>
        obtain ⟨-, -, -, -, -, -, himp, hcre, hupd⟩ :=
          normalize_memory_entry_inv _ now _ ne h
        rw [List.pairwise_cons]
        constructor
        · intro y hy
          obtain ⟨f, hf, -, -, -, -, hyupd, hyimp⟩ :=
            prepareGo_mem_src now fresh rest c (k + 1) _ y hy
          have hef := hhead f hf
          rw [sort_key_ge, entry_sort_key, entry_sort_key] at hef ⊢
          simp only []
          have hne_upd : ne.updated_at = e.updated_at := by simpa using hupd
          have hne_imp : ne.importance = safe_int (some e.importance) 3 1 5 := by
            simpa using himp
          rcases hef with hlt | ⟨heq, hle⟩
          · exact Or.inl (by rw [hyupd, hne_upd]; exact hlt)
          · refine Or.inr ⟨by rw [hyupd, hne_upd]; exact heq, ?_⟩
            rw [hyimp, hne_imp]
            exact clamp_importance_mono hle
        · exact ih c (k + 1) _ htail

/-! ## `_prepare_entries` -/

theorem prepare_entries_length_le (now : Nat) (fresh : Nat → String)
    (l : List MemoryEntry) : (prepare_entries now fresh l).length ≤ MAX_ENTRIES :=
  prepareGo_length_le now fresh _ MAX_ENTRIES 0 []

theorem prepare_entries_length (now : Nat) (fresh : Nat → String)
    (l : List MemoryEntry)
    (h : ∀ e ∈ l, normalize_text e.fact MAX_FACT_LEN = e.fact ∧ e.fact ≠ "") :
    (prepare_entries now fresh l).length = min l.length MAX_ENTRIES := by
  rw [prepare_entries,
    prepareGo_length now fresh _ MAX_ENTRIES 0 []
      (fun e he => h e ((List.mem_insertionSort _).mp he)),
    (List.perm_insertionSort sort_key_ge l).length_eq]

theorem prepare_entries_facts_ok (now : Nat) (fresh : Nat → String)
    (l : List MemoryEntry) :
    ∀ x ∈ prepare_entries now fresh l,
      normalize_text x.fact MAX_FACT_LEN = x.fact ∧ x.fact ≠ "" := by
  intro x hx
  obtain ⟨e, -, hfact, hne, -⟩ :=
    prepareGo_mem_src now fresh _ MAX_ENTRIES 0 [] x hx
  exact ⟨by rw [hfact, normalize_text_idem], hne⟩

theorem prepare_entries_complete (now : Nat) (fresh : Nat → String)
    (l : List MemoryEntry)
    (h : ∀ e ∈ l, normalize_text e.fact MAX_FACT_LEN = e.fact ∧ e.fact ≠ "")
    (hlen : l.length ≤ MAX_ENTRIES) :
    ∀ e ∈ l, ∃ x ∈ prepare_entries now fresh l,
      x.fact = e.fact ∧ x.user_name = normalize_text e.user_name 96 := by
  intro e he
  exact prepareGo_complete now fresh _ MAX_ENTRIES 0 []
    (fun f hf => h f ((List.mem_insertionSort _).mp hf))
    (by rw [(List.perm_insertionSort sort_key_ge l).length_eq]; exact hlen)
    e ((List.mem_insertionSort _).mpr he)

theorem prepare_entries_sorted (now : Nat) (fresh : Nat → String)
    (l : List MemoryEntry) :
    (prepare_entries now fresh l).Pairwise sort_key_ge :=
  prepareGo_pairwise now fresh _ MAX_ENTRIES 0 []
    (List.sorted_insertionSort sort_key_ge l)

theorem prepareGo_updated_map (now : Nat) (fresh : Nat → String) :
    ∀ (l : List MemoryEntry) (cap k : Nat) (seen : List String),
      (∀ e ∈ l, normalize_text e.fact MAX_FACT_LEN = e.fact ∧ e.fact ≠ "") →
      (prepareGo now fresh cap k seen l).map (fun e => e.updated_at) =
        (l.take cap).map (fun e => e.updated_at) := by
  intro l
  induction l with
  | nil => intro cap k seen _; cases cap <;> simp [prepareGo]
  | cons e rest ih =>
    intro cap k seen hfacts
    obtain ⟨hfix, hne⟩ := hfacts e (List.mem_cons_self e rest)
    have hrest := fun x hx => hfacts x (List.mem_cons_of_mem e hx)
    cases cap with
    | zero => simp [prepareGo]
    | succ c =>
      rw [prepareGo, normalize_entry_to_raw e now (fresh (2 * k)) hfix hne]
      simp only [List.take_succ_cons, List.map_cons]
      rw [ih c (k + 1) _ hrest]

/-- When every input entry is well-formed, the facts kept by
`_prepare_entries` carry exactly the timestamps of the first
`MAX_ENTRIES` entries of the `(updated_at desc, importance desc)`
ordering: the trim drops the oldest-updated entries. -/
theorem prepare_entries_trim (now : Nat) (fresh : Nat → String)
    (l : List MemoryEntry)
    (h : ∀ e ∈ l, normalize_text e.fact MAX_FACT_LEN = e.fact ∧ e.fact ≠ "") :
    (prepare_entries now fresh l).map (fun e => e.updated_at) =
      ((List.insertionSort sort_key_ge l).take MAX_ENTRIES).map
        (fun e => e.updated_at) := by
  rw [prepare_entries]
  exact prepareGo_updated_map now fresh _ MAX_ENTRIES 0 []
    (fun e he => h e ((List.mem_insertionSort _).mp he))

/-! ## Scope facts -/

theorem user_identities_match_refl {s : String} (h : s ≠ "") :
    user_identities_match s s = true := by
  rw [user_identities_match]
  rw [if_neg (by simp [h])]
  rw [if_pos rfl]

theorem matches_scope_self (x : MemoryEntry) (ru : String)
    (hid : normalize_text ru 96 = ru) (hx : x.user_name = ru) :
    matches_scope x "current_user" ru = true := by
  rw [matches_scope]
  rw [if_neg (by decide : ¬(("current_user" : String) = "all"))]
  rw [hid, hx, hid]
  by_cases hsafe : lowerStr ru = ""
  · rw [if_pos hsafe]
  · rw [if_neg hsafe, if_neg hsafe]
    exact user_identities_match_refl hsafe

/-! # Claim theorems -/

/-- C3 counterexample: with an empty runtime user name, scope
`current_user` also matches an entry owned by the named user `"alice"` —
the claim says only entries with an empty `user_name` are seen. -/
theorem C3_counterexample :
    matches_scope entry_alice_owned "current_user" "" = true ∧
      entry_alice_owned.user_name ≠ "" := by
  exact ⟨by decide, by decide⟩

/-- C3 (amended): when the runtime user name is empty, scope `current_user`
is not an error and matches every entry (named-user entries included), not
only the global ones: `_matches_scope` returns `True` before ever reading
the entry's `user_name`. -/
theorem C3_empty_runtime_matches_all (e : MemoryEntry) :
    matches_scope e "current_user" "" = true := by
  rfl

/-- C5 counterexample: `forget` with a query consisting only of the
stopword `"про"` (and no id/key) raises the validation error even though
`query` was supplied — the guard tests the tokenized query, and stopwords
tokenize to nothing. -/
theorem C5_counterexample :
    forget { query := "про" } rt_alice 0 fresh_ids "q" [] =
        .error "at least one of id, key, or query is required" ∧
      ({ query := "про" } : ForgetArgs).query ≠ "" := by
  exact ⟨by rfl, by decide⟩

/-- C5 (amended): `forget` raises the validation error iff the normalized
id is empty, the canonical key is empty, and the query tokenizes to no
terms (so a stopword-only or sub-2-character query counts as absent). -/
theorem C5_error_iff (args : ForgetArgs) (rt : RuntimeInfo) (now : Nat)
    (fresh : Nat → String) (req : String) (entries : List MemoryEntry) :
    forget args rt now fresh req entries =
        .error "at least one of id, key, or query is required" ↔
      (normalize_text args.id 120 = "" ∧ canonicalize_key args.key = "" ∧
        tokenize_query (normalize_text args.query 220) = []) := by
  simp only [forget]
  by_cases hc : (decide (normalize_text args.id 120 = "") &&
      decide (canonicalize_key args.key = "") &&
      (tokenize_query (normalize_text args.query 220)).isEmpty) = true
  · rw [if_pos hc]
    simp only [true_iff]
    simpa [List.isEmpty_iff, and_assoc] using hc
  · rw [if_neg hc]
    constructor
    · intro hcontra
      split at hcontra <;> exact absurd hcontra (by simp)
    · intro hP
      refine absurd ?_ hc
      simp [hP.1, hP.2.1, List.isEmpty_iff, hP.2.2]

/-- C6: after every save, the persisted rows hold at most
`MAX_ENTRIES = 2000` entries, sorted descending by
`(updated_at, importance)`, the JSON mirror is exactly the first
`JSON_MIRROR_MAX = 600` of them, and (for well-formed input entries) the
kept rows carry exactly the timestamps of the first `MAX_ENTRIES`
entries of the descending `(updated_at, importance)` ordering of the
input — the trim drops the oldest-updated entries first. -/
theorem C6_save_bounds (now : Nat) (fresh : Nat → String)
    (entries : List MemoryEntry) :
    (save_entries now fresh entries).1.length ≤ MAX_ENTRIES ∧
      (save_entries now fresh entries).2 =
        (save_entries now fresh entries).1.take JSON_MIRROR_MAX ∧
      (save_entries now fresh entries).2.length ≤ JSON_MIRROR_MAX ∧
      (save_entries now fresh entries).1.Pairwise sort_key_ge ∧
      ((∀ e ∈ entries, normalize_text e.fact MAX_FACT_LEN = e.fact ∧ e.fact ≠ "") →
        (save_entries now fresh entries).1.map (fun e => e.updated_at) =
          ((List.insertionSort sort_key_ge entries).take MAX_ENTRIES).map
            (fun e => e.updated_at)) := by
  refine ⟨prepare_entries_length_le now fresh entries, rfl, ?_,
    prepare_entries_sorted now fresh entries,
    fun h => prepare_entries_trim now fresh entries h⟩
  show ((prepare_entries now fresh entries).take JSON_MIRROR_MAX).length ≤ _
  rw [List.length_take]
  exact min_le_left _ _

theorem C6_witness :
    (∀ e ∈ [entry_fact_one, entry_fact_two],
      normalize_text e.fact MAX_FACT_LEN = e.fact ∧ e.fact ≠ "") ∧
    (save_entries 7 fresh_ids [entry_fact_one, entry_fact_two]).1.map
        (fun e => e.updated_at) =
      ((List.insertionSort sort_key_ge [entry_fact_one, entry_fact_two]).take
          MAX_ENTRIES).map (fun e => e.updated_at) :=
  ⟨by decide,
   (C6_save_bounds 7 fresh_ids [entry_fact_one, entry_fact_two]).2.2.2.2 (by decide)⟩

/-- C7 counterexample: loading a persisted record whose `updated_at`
precedes its `created_at` keeps both timestamps unchanged, so the loaded
store violates `updated_at ≥ created_at`. -/
theorem C7_counterexample :
    (load_entries_from_settings [raw_time_skew] 7 fresh_ids).map
        (fun e => (e.created_at, e.updated_at)) = [(100, 50)] ∧ (50 : Nat) < 100 := by
  exact ⟨by decide, by decide⟩

/-- C7 (amended): normalization preserves arbitrary persisted timestamps,
so `updated_at ≥ created_at` is not enforced on load; it does hold whenever
the raw record has no `updated_at`, in which case `updated_at` is set equal
to `created_at` (fresh entries from `remember` likewise get
`updated_at = created_at = now`). -/
theorem C7_missing_updated_eq_created (raw : RawEntry) (now : Nat) (fid : String)
    (e : MemoryEntry) (hupd : raw.updated_at = none)
    (h : normalize_memory_entry raw now fid = some e) :
    e.updated_at = e.created_at := by
  obtain ⟨-, -, -, -, -, -, -, hcre, hupd'⟩ :=
    normalize_memory_entry_inv raw now fid e h
  rw [hupd', hupd]
  simp only [Option.getD_none]
  exact hcre.symm

/-- Witness for C7's amended theorem at a concrete record. -/
theorem C7_witness :
    raw_no_updated.updated_at = none ∧
      normalize_memory_entry raw_no_updated 5 "mem-w" = some entry_c7 ∧
      entry_c7.updated_at = entry_c7.created_at :=
  ⟨rfl, by decide,
    C7_missing_updated_eq_created raw_no_updated 5 "mem-w" entry_c7 rfl (by decide)⟩

/-- C4 counterexample: `forget {query := "alpha dog"}` on a store with the
entry `"alpha cat"` removes it although only one of the two base tokens
occurs in its lexical blob and neither id nor key was supplied — the
claim says such an entry is not a match. -/
theorem C4_counterexample :
    (forget { query := "alpha dog", scope := "all" } rt_alice 60 fresh_ids "q"
        [entry_alpha_cat]).map (fun r => r.removed_count) = .ok 1 ∧
      ¬(∀ t ∈ tokenize_query (normalize_text "alpha dog" 220),
          str_contains_sub t (entry_search_blob entry_alpha_cat) = true) ∧
      tokenize_query (normalize_text "alpha dog" 220) ≠ [] ∧
      normalize_text ("" : String) 120 = "" ∧ canonicalize_key ("" : String) = "" := by
  exact ⟨by rfl, by decide, by decide, by decide, by decide⟩

/-- C4 (amended): an in-scope entry is marked as a match iff its id equals
the given id, or its canonical key equals the given key, or all base query
tokens occur in its lexical blob, or any expanded token (the base tokens
themselves included, since expansion keeps them) occurs in the blob — so
an entry in which some but not all base tokens appear is a match. -/
theorem C4_match_iff (targetId key query : String) (e : MemoryEntry) :
    forget_matches targetId key (tokenize_query query)
        (expand_query_terms (tokenize_query query)) e = true ↔
      ((targetId ≠ "" ∧ normalize_text e.id 120 = targetId) ∨
        (key ≠ "" ∧ canonicalize_key e.key = key) ∨
        (tokenize_query query ≠ [] ∧ ∀ t ∈ tokenize_query query,
          str_contains_sub t (entry_search_blob e) = true) ∨
        (∃ t ∈ expand_query_terms (tokenize_query query),
          str_contains_sub t (entry_search_blob e) = true)) := by
  have hisEmpty : ∀ {l : List String}, l ≠ [] → l.isEmpty = false := by
    intro l h
    cases l with
    | nil => exact absurd rfl h
    | cons a t => rfl
  by_cases hall : (!(tokenize_query query).isEmpty &&
      (tokenize_query query).all (fun t => str_contains_sub t (entry_search_blob e))) = true
  · obtain ⟨hne0, hall0⟩ := (Bool.and_eq_true _ _).mp hall
    have hne : tokenize_query query ≠ [] := by
      intro hnil
      rw [hnil] at hne0
      exact absurd hne0 (by decide)
    have h3 : tokenize_query query ≠ [] ∧ ∀ t ∈ tokenize_query query,
        str_contains_sub t (entry_search_blob e) = true :=
      ⟨hne, fun t ht => List.all_eq_true.mp hall0 t ht⟩
    simp only [forget_matches, hall, if_true]
    exact iff_of_true (by simp) (Or.inr (Or.inr (Or.inl h3)))
  · have hall' : (!(tokenize_query query).isEmpty &&
        (tokenize_query query).all (fun t => str_contains_sub t (entry_search_blob e))) = false := by
      simpa using hall
    have hn3 : ¬(tokenize_query query ≠ [] ∧ ∀ t ∈ tokenize_query query,
        str_contains_sub t (entry_search_blob e) = true) := by
      intro h3
      refine absurd ((Bool.and_eq_true _ _).mpr ⟨?_, List.all_eq_true.mpr h3.2⟩) hall
      rw [hisEmpty h3.1]
      rfl
    simp only [forget_matches, hall', Bool.false_eq_true, if_false]
    constructor
    · intro h
      rcases (Bool.or_eq_true _ _).mp h with h12 | hq
      · rcases (Bool.or_eq_true _ _).mp h12 with h1 | h2
        · obtain ⟨ha, hb⟩ := (Bool.and_eq_true _ _).mp h1
          exact Or.inl ⟨of_decide_eq_true ha, beq_iff_eq.mp hb⟩
        · obtain ⟨ha, hb⟩ := (Bool.and_eq_true _ _).mp h2
          exact Or.inr (Or.inl ⟨of_decide_eq_true ha, beq_iff_eq.mp hb⟩)
      · obtain ⟨-, hany⟩ := (Bool.and_eq_true _ _).mp hq
        obtain ⟨t, ht, hsub⟩ := List.any_eq_true.mp hany
        exact Or.inr (Or.inr (Or.inr ⟨t, ht, hsub⟩))
    · intro h
      rcases h with h1 | h2 | h3 | ⟨t, ht, hsub⟩
      · refine (Bool.or_eq_true _ _).mpr (Or.inl ((Bool.or_eq_true _ _).mpr (Or.inl ?_)))
        exact (Bool.and_eq_true _ _).mpr ⟨decide_eq_true h1.1, beq_iff_eq.mpr h1.2⟩
      · refine (Bool.or_eq_true _ _).mpr (Or.inl ((Bool.or_eq_true _ _).mpr (Or.inr ?_)))
        exact (Bool.and_eq_true _ _).mpr ⟨decide_eq_true h2.1, beq_iff_eq.mpr h2.2⟩
      · exact absurd h3 hn3
      · refine (Bool.or_eq_true _ _).mpr (Or.inr ((Bool.and_eq_true _ _).mpr ⟨?_, ?_⟩))
        · rw [hisEmpty (List.ne_nil_of_mem ht)]
          rfl
        · exact List.any_eq_true.mpr ⟨t, ht, hsub⟩

theorem forget_fold_kept (targetId key : String) (base expanded : List String)
    (scope ru : String) (allM : Bool) :
    ∀ (l : List MemoryEntry) (acc : List MemoryEntry × List MemoryEntry),
      (∀ e ∈ l, matches_scope e scope ru = true →
        forget_matches targetId key base expanded e = false) →
      l.foldl (forget_step targetId key base expanded scope ru allM) acc =
        (acc.1 ++ l, acc.2) := by
  intro l
  induction l with
  | nil => intro acc _; simp
  | cons e rest ih =>
    intro acc h
    rw [List.foldl_cons]
    have hstep : forget_step targetId key base expanded scope ru allM acc e =
        (acc.1 ++ [e], acc.2) := by
      rw [forget_step]
      by_cases hs : matches_scope e scope ru = true
      · rw [if_neg (by simp [hs])]
        rw [if_neg (by simp [h e (List.mem_cons_self e rest) hs])]
      · rw [if_pos (by simp [Bool.not_eq_true] at hs ⊢; exact hs)]
    rw [hstep, ih _ (fun x hx => h x (List.mem_cons_of_mem e hx))]
    simp

/-- C10: when no in-scope entry matches the given id, key, or query,
`forget` performs no write (`write = none`: neither SQLite nor the JSON
mirror is touched), reports `removed_count = 0`, and `remaining_count`
equals the number of loaded entries. -/
theorem C10_no_match_no_write (args : ForgetArgs) (rt : RuntimeInfo) (now : Nat)
    (fresh : Nat → String) (req : String) (entries : List MemoryEntry)
    (hvalid : ¬(normalize_text args.id 120 = "" ∧ canonicalize_key args.key = "" ∧
      tokenize_query (normalize_text args.query 220) = []))
    (hnone : ∀ e ∈ entries,
      matches_scope e (resolve_scope args.scope) (normalize_text rt.user_name 96) = true →
      forget_matches (normalize_text args.id 120) (canonicalize_key args.key)
        (tokenize_query (normalize_text args.query 220))
        (expand_query_terms (tokenize_query (normalize_text args.query 220))) e = false) :
    forget args rt now fresh req entries =
      .ok { removed_count := 0, removed := [], remaining_count := entries.length,
            scope := resolve_scope args.scope, request_id := req, write := none } := by
  simp only [forget]
  rw [if_neg (fun hc => hvalid (by simpa [List.isEmpty_iff, and_assoc] using hc))]
  rw [forget_fold_kept _ _ _ _ _ _ _ entries ([], []) hnone]
  simp

/-- Witness for C10 at a concrete store and query. -/
theorem C10_witness :
    (¬(normalize_text ({ query := "zebra" } : ForgetArgs).id 120 = "" ∧
        canonicalize_key ({ query := "zebra" } : ForgetArgs).key = "" ∧
        tokenize_query (normalize_text ({ query := "zebra" } : ForgetArgs).query 220) = [])) ∧
      (∀ e ∈ [entry_alpha_cat],
        matches_scope e (resolve_scope ({ query := "zebra" } : ForgetArgs).scope)
          (normalize_text rt_alice.user_name 96) = true →
        forget_matches (normalize_text ({ query := "zebra" } : ForgetArgs).id 120)
          (canonicalize_key ({ query := "zebra" } : ForgetArgs).key)
          (tokenize_query (normalize_text ({ query := "zebra" } : ForgetArgs).query 220))
          (expand_query_terms (tokenize_query
            (normalize_text ({ query := "zebra" } : ForgetArgs).query 220))) e = false) ∧
      forget { query := "zebra" } rt_alice 60 fresh_ids "q" [entry_alpha_cat] =
        .ok { removed_count := 0, removed := [], remaining_count := 1,
              scope := resolve_scope ({ query := "zebra" } : ForgetArgs).scope,
              request_id := "q", write := none } :=
  ⟨by decide, by decide,
    C10_no_match_no_write { query := "zebra" } rt_alice 60 fresh_ids "q"
      [entry_alpha_cat] (by decide) (by decide)⟩

/-! ## Identity-matcher facts (C8) -/

theorem splitIdentGo_nodup : ∀ (l seen acc : List String), acc.Nodup →
    (∀ a ∈ acc, a ∈ seen) → (splitIdentGo l seen acc).Nodup := by
  intro l
  induction l with
  | nil => intro seen acc h _; simpa [splitIdentGo] using h
  | cons p rest ih =>
    intro seen acc hnd hsub
    rw [splitIdentGo]
    by_cases hseen : seen.contains p = true
    · rw [if_pos hseen]
      exact ih seen acc hnd hsub
    · rw [if_neg hseen]
      have hpnotacc : p ∉ acc := fun hp => hseen (List.elem_iff.mpr (hsub p hp))
      have hnd' : (acc ++ [p]).Nodup := by
        rw [List.nodup_append]
        refine ⟨hnd, List.nodup_singleton p, ?_⟩
        intro a ha hb
        rw [List.mem_singleton] at hb
        subst hb
        exact hpnotacc ha
      by_cases hcap : (acc ++ [p]).length ≥ 6
      · rw [if_pos hcap]
        exact hnd'
      · rw [if_neg hcap]
        refine ih (p :: seen) (acc ++ [p]) hnd' ?_
        intro a ha
        rcases List.mem_append.mp ha with ha | ha
        · exact List.mem_cons_of_mem p (hsub a ha)
        · rw [List.mem_singleton] at ha
          subst ha
          exact List.mem_cons_self a seen

theorem split_user_identity_nodup (s : String) : (split_user_identity s).Nodup := by
  rw [split_user_identity]
  by_cases h : normalize_user_identity s = ""
  · rw [if_pos h]
    exact List.nodup_nil
  · rw [if_neg h]
    exact splitIdentGo_nodup _ [] [] List.nodup_nil (by simp)

theorem overlap_length_symm (A B : List String) (hA : A.Nodup) (hB : B.Nodup) :
    (A.filter (fun t => B.contains t)).length =
      (B.filter (fun t => A.contains t)).length := by
  have hperm : List.Perm (A.filter (fun t => B.contains t))
      (B.filter (fun t => A.contains t)) := by
    rw [List.perm_ext_iff_of_nodup (hA.filter _) (hB.filter _)]
    intro a
    simp only [List.mem_filter, List.contains, List.elem_iff]
    tauto
  exact hperm.length_eq

theorem identity_non_fuzzy_rule_symm (x y : String)
    (h : identity_non_fuzzy_rule x y) : identity_non_fuzzy_rule y x := by
  obtain ⟨hx, hy, hcases⟩ := h
  refine ⟨hy, hx, ?_⟩
  rcases hcases with heq | ⟨hnx, hny, hrules⟩
  · exact Or.inl heq.symm
  · refine Or.inr ⟨hny, hnx, ?_⟩
    rcases hrules with h1 | h2 | h3 | ⟨hrt, het, hov, hmin⟩
    · exact Or.inl h1.symm
    · exact Or.inr (Or.inr (Or.inl h2))
    · exact Or.inr (Or.inl h3)
    · have hxn := split_user_identity_nodup x
      have hyn := split_user_identity_nodup y
      have hlen := overlap_length_symm (split_user_identity x)
        (split_user_identity y) hxn hyn
      refine Or.inr (Or.inr (Or.inr ⟨het, hrt, ?_, ?_⟩))
      · intro hnil
        rw [hnil] at hlen
        simp only [List.length_nil] at hlen
        exact hov (List.length_eq_zero.mp hlen)
      · rw [min_comm, ← hlen]
        exact hmin

theorem user_identities_match_of_non_fuzzy (x y : String)
    (h : identity_non_fuzzy_rule x y) : user_identities_match x y = true := by
  obtain ⟨hx, hy, hcases⟩ := h
  rw [user_identities_match]
  rw [if_neg (by simp [hx, hy])]
  by_cases hxy : x = y
  · rw [if_pos hxy]
  · rw [if_neg hxy]
    rcases hcases with heq | ⟨hnx, hny, hrules⟩
    · exact absurd heq hxy
    · rw [if_neg (by simp [hnx, hny])]
      by_cases hneq : normalize_user_identity x = normalize_user_identity y
      · rw [if_pos hneq]
      · rw [if_neg hneq]
        by_cases hs1 : (decide ((normalize_user_identity x).length ≥ 4) &&
            str_contains_sub (normalize_user_identity x) (normalize_user_identity y)) = true
        · rw [if_pos hs1]
        · rw [if_neg hs1]
          by_cases hs2 : (decide ((normalize_user_identity y).length ≥ 4) &&
              str_contains_sub (normalize_user_identity y) (normalize_user_identity x)) = true
          · rw [if_pos hs2]
          · rw [if_neg hs2]
            rcases hrules with hne2 | hsub1 | hsub2 | ⟨hrt, het, hov, hmin⟩
            · exact absurd hne2 hneq
            · exact absurd ((Bool.and_eq_true _ _).mpr
                ⟨decide_eq_true hsub1.1, hsub1.2⟩) hs1
            · exact absurd ((Bool.and_eq_true _ _).mpr
                ⟨decide_eq_true hsub2.1, hsub2.2⟩) hs2
            · have hisEmpty : ∀ {l : List String}, l ≠ [] → l.isEmpty = false := by
                intro l hl
                cases l with
                | nil => exact absurd rfl hl
                | cons a t => rfl
              have h1 : (!(split_user_identity x).isEmpty &&
                  !(split_user_identity y).isEmpty) = true := by
                rw [hisEmpty hrt, hisEmpty het]
                rfl
              have h2 : (!((split_user_identity x).filter
                    (fun t => (split_user_identity y).contains t)).isEmpty &&
                  decide (2 * ((split_user_identity x).filter
                    (fun t => (split_user_identity y).contains t)).length ≥
                    min (split_user_identity x).length (split_user_identity y).length)) = true := by
                rw [hisEmpty hov]
                simp only [Bool.not_false, Bool.true_and, decide_eq_true_eq]
                exact hmin
              simp only [h1, h2, if_true]

/-- C8 counterexample: identity matching is not symmetric.  The fuzzy rule
uses difflib's Ratcliff–Obershelp ratio, which is order-dependent:
`ratio("aba", "babba") = 3/4 ≥ 0.72` but `ratio("babba", "aba") = 1/2`,
and no earlier rule applies to this pair. -/
theorem C8_counterexample :
    user_identities_match "aba" "babba" = true ∧
      user_identities_match "babba" "aba" = false := by
  exact ⟨by decide, by decide⟩

/-- C8 (amended): identity matching is symmetric whenever one of the
non-fuzzy rules decides it — exact equality, transliterated-normalized
equality, substring of length ≥ 4, or token-overlap ratio ≥ 0.5: then both
argument orders match.  Full symmetry fails because the fuzzy-ratio rules
(cross-token ≥ 0.78, whole-string ≥ 0.72) use the order-dependent
`SequenceMatcher.ratio`, which is not the symmetric LCS ratio. -/
theorem C8_non_fuzzy_symmetric (x y : String) (h : identity_non_fuzzy_rule x y) :
    user_identities_match x y = true ∧ user_identities_match y x = true :=
  ⟨user_identities_match_of_non_fuzzy x y h,
    user_identities_match_of_non_fuzzy y x (identity_non_fuzzy_rule_symm x y h)⟩

/-- Witness for C8's amended theorem: transliteration-equal names. -/
theorem C8_witness :
    identity_non_fuzzy_rule "Andrey" "Андрей" ∧
      (user_identities_match "Andrey" "Андрей" = true ∧
        user_identities_match "Андрей" "Andrey" = true) :=
  ⟨by decide, C8_non_fuzzy_symmetric "Andrey" "Андрей" (by decide)⟩

/-- C2 counterexample: an update whose target entry already has a non-empty
`user_name`/`chat_id` still adopts the runtime values (`"Bob"`, `"c2"`)
because the code computes `runtime or existing`, not `existing or runtime`;
the claim says a non-empty existing value stays unchanged.  (`created_at`
is preserved and `updated_at` advances, as claimed.) -/
theorem C2_counterexample :
    (remember_core { fact := "likes tea" } rt_bob 50 "mem-z" [entry_bob_smith]).map
        (fun c => (c.action, c.saved.user_name, c.saved.chat_id,
          c.saved.created_at, c.saved.updated_at)) =
      .ok ("updated", "Bob", "c2", 10, 50) ∧
      entry_bob_smith.user_name = "Bob Smith" ∧ entry_bob_smith.chat_id = "c0" := by
  exact ⟨by rfl, rfl, rfl⟩

/-- C2 (amended): whenever `remember` updates an existing entry, the stored
entry is `remember_update` of some scanned entry: `created_at` is
preserved, `updated_at` is set to `now`, tags are merged, fact and
importance are overwritten, and `user_name`/`chat_id` are taken from the
runtime whenever the *runtime* value is non-empty (the existing value is
kept only when the runtime value is empty). -/
theorem C2_update_frame (args : RememberArgs) (rt : RuntimeInfo) (now : Nat)
    (fid : String) (entries : List MemoryEntry) (c : RememberCoreOut)
    (h : remember_core args rt now fid entries = .ok c) (hu : c.action = "updated") :
    ∃ e ∈ entries, c.saved = remember_update args rt now e ∧
      (remember_fact_pred args rt e = true ∨ remember_key_pred args rt e = true) := by
  rw [remember_core] at h
  by_cases hf : normalize_text args.fact MAX_FACT_LEN = ""
  · rw [if_pos hf] at h
    exact absurd h (by simp)
  · rw [if_neg hf] at h
    cases h1 : replace_first (remember_fact_pred args rt)
        (remember_update args rt now) entries with
    | some y =>
      obtain ⟨o, n', l'⟩ := y
      rw [h1] at h
      simp only [Except.ok.injEq] at h
      subst h
      obtain ⟨hmem, hp, hn, -, -⟩ := replace_first_some_spec _ _ entries o n' l' h1
      exact ⟨o, hmem, hn, Or.inl hp⟩
    | none =>
      rw [h1] at h
      by_cases hk : (decide (remember_key args ≠ "") && args.overwrite_key) = true
      · rw [if_pos hk] at h
        cases h2 : replace_first (remember_key_pred args rt)
            (remember_update args rt now) entries with
        | some y =>
          obtain ⟨o, n', l'⟩ := y
          rw [h2] at h
          simp only [Except.ok.injEq] at h
          subst h
          obtain ⟨hmem, hp, hn, -, -⟩ := replace_first_some_spec _ _ entries o n' l' h2
          exact ⟨o, hmem, hn, Or.inr hp⟩
        | none =>
          rw [h2] at h
          simp only [Except.ok.injEq] at h
          subst h
          simp at hu
      · rw [if_neg hk] at h
        simp only [Except.ok.injEq] at h
        subst h
        simp at hu

/-- Witness for C2's amended theorem at a concrete update. -/
theorem C2_witness :
    remember_core { fact := "likes tea" } rt_bob 50 "mem-z" [entry_bob_smith] =
        .ok ⟨"updated", remember_update { fact := "likes tea" } rt_bob 50 entry_bob_smith,
          [remember_update { fact := "likes tea" } rt_bob 50 entry_bob_smith]⟩ ∧
      ∃ e ∈ [entry_bob_smith],
        (⟨"updated", remember_update { fact := "likes tea" } rt_bob 50 entry_bob_smith,
            [remember_update { fact := "likes tea" } rt_bob 50 entry_bob_smith]⟩ :
          RememberCoreOut).saved = remember_update { fact := "likes tea" } rt_bob 50 e ∧
          (remember_fact_pred { fact := "likes tea" } rt_bob e = true ∨
            remember_key_pred { fact := "likes tea" } rt_bob e = true) :=
  ⟨by rfl,
    C2_update_frame { fact := "likes tea" } rt_bob 50 "mem-z" [entry_bob_smith] _
      (by rfl) rfl⟩

/-! ## `recall` facts (C9) -/

instance : IsTotal (ℚ × Nat × MemoryEntry) rank_by_ts :=
  ⟨fun a b => by
    rw [rank_by_ts, rank_by_ts]
    rcases Nat.lt_trichotomy a.2.1 b.2.1 with h | h | h
    · exact Or.inr (Or.inl h)
    · rcases le_total b.1 a.1 with hq | hq
      · exact Or.inl (Or.inr ⟨h.symm, hq⟩)
      · exact Or.inr (Or.inr ⟨h, hq⟩)
    · exact Or.inl (Or.inl h)⟩

instance : IsTrans (ℚ × Nat × MemoryEntry) rank_by_ts :=
  ⟨fun a b c hab hbc => by
    rw [rank_by_ts] at *
    rcases hab with h1 | ⟨h1, h1q⟩ <;> rcases hbc with h2 | ⟨h2, h2q⟩
    · exact Or.inl (lt_trans h2 h1)
    · exact Or.inl (by rw [h2]; exact h1)
    · exact Or.inl (by rw [← h1]; exact h2)
    · exact Or.inr ⟨h2.trans h1, le_trans h2q h1q⟩⟩

theorem recall_candidate_empty_map (qv : List (String × ℚ)) (ql : String)
    (ftsMap : String → ℚ) (scope ru : String) (now : Nat) :
    ∀ l : List MemoryEntry,
      (l.filterMap (recall_candidate "" [] [] qv ql ftsMap scope ru now)).map
          (fun x => x.2.2) =
        l.filter (fun e => matches_scope e scope ru) := by
  intro l
  induction l with
  | nil => rfl
  | cons e rest ih =>
    cases hm : matches_scope e scope ru with
    | false =>
      have hc : recall_candidate "" [] [] qv ql ftsMap scope ru now e = none := by
        simp [recall_candidate, hm]
      rw [List.filterMap_cons, List.filter_cons, hc, hm]
      simpa using ih
    | true =>
      have hc : ∃ s : ℚ, recall_candidate "" [] [] qv ql ftsMap scope ru now e =
          some (s, e.updated_at, e) := by
        simp only [recall_candidate, hm]
        exact ⟨_, rfl⟩
      obtain ⟨s, hc⟩ := hc
      rw [List.filterMap_cons, List.filter_cons, hc, hm]
      simpa using ih

theorem recall_candidate_empty_ts (qv : List (String × ℚ)) (ql : String)
    (ftsMap : String → ℚ) (scope ru : String) (now : Nat) :
    ∀ l : List MemoryEntry,
      ∀ x ∈ l.filterMap (recall_candidate "" [] [] qv ql ftsMap scope ru now),
        x.2.1 = x.2.2.updated_at := by
  intro l
  induction l with
  | nil => intro x hx; exact absurd hx (List.not_mem_nil x)
  | cons e rest ih =>
    intro x hx
    cases hm : matches_scope e scope ru with
    | false =>
      have hc : recall_candidate "" [] [] qv ql ftsMap scope ru now e = none := by
        simp [recall_candidate, hm]
      rw [List.filterMap_cons, hc] at hx
      exact ih x hx
    | true =>
      have hc : ∃ s : ℚ, recall_candidate "" [] [] qv ql ftsMap scope ru now e =
          some (s, e.updated_at, e) := by
        simp only [recall_candidate, hm]
        exact ⟨_, rfl⟩
      obtain ⟨s, hc⟩ := hc
      rw [List.filterMap_cons, hc] at hx
      rcases List.mem_cons.mp hx with rfl | hx
      · rfl
      · exact ih x hx

/-- C9: a `recall` whose query is empty (normalizes to `""`) or generic
(matches a generic-recall pattern / reduces to memory-intent verbs) and
that supplies no key and no tags returns the in-scope entries sorted by
`updated_at` descending, truncated to `limit`, projected to public
memories. -/
theorem C9_generic_recall (args : RecallArgs) (rt : RuntimeInfo) (now : Nat)
    (ftsBonus : String → ℚ) (req : String) (entries : List MemoryEntry)
    (hq : normalize_text args.query 220 = "" ∨
      looks_like_generic_recall_query (normalize_text args.query 220) = true)
    (hkey : canonicalize_key args.key = "")
    (htags : normalize_tags args.tags = []) :
    ∃ sorted : List MemoryEntry,
      List.Perm sorted (entries.filter
        (fun e => matches_scope e (resolve_scope args.scope)
          (normalize_text rt.user_name 96))) ∧
      sorted.Pairwise (fun a b => b.updated_at ≤ a.updated_at) ∧
      («recall» args rt now ftsBonus req entries).memories =
        (sorted.take (safe_int args.limit 5 1 20).toNat).map
          (fun e => public_memory e (resolve_scope args.scope = "all")) := by
  have hq0 : (if looks_like_generic_recall_query (normalize_text args.query 220) = true
      then "" else normalize_text args.query 220) = "" := by
    rcases hq with hq | hq
    · rw [hq]
      exact ite_self ""
    · rw [hq]
      rfl
  have hb : tokenize_query "" = [] := rfl
  have hx : expand_query_terms [] = [] := rfl
  have hi : infer_key_from_terms ([] ++ []) = "" := rfl
  have hcond : (decide ¬infer_key_from_terms ([] : List String) = "" || false) = false := by
    decide
  simp only [«recall», hq0, hkey, htags, hb, hx, hi, List.isEmpty_nil,
    if_pos, ne_eq, not_true_eq_false, List.append_nil, Bool.not_true,
    Bool.false_or, Bool.or_self, if_false, hcond, Bool.false_eq_true]
  refine ⟨(List.insertionSort rank_by_ts (entries.filterMap
      (recall_candidate "" [] [] (build_sparse_vector (String.intercalate " " []))
        (lowerStr "") (fun _ => 0) (resolve_scope args.scope)
        (normalize_text rt.user_name 96) now))).map (fun x => x.2.2), ?_, ?_, ?_⟩
  · refine ((List.perm_insertionSort rank_by_ts _).map _).trans ?_
    rw [recall_candidate_empty_map]
  · have hsorted := List.sorted_insertionSort rank_by_ts (entries.filterMap
      (recall_candidate "" [] [] (build_sparse_vector (String.intercalate " " []))
        (lowerStr "") (fun _ => 0) (resolve_scope args.scope)
        (normalize_text rt.user_name 96) now))
    rw [List.pairwise_map]
    refine List.Pairwise.imp_of_mem ?_ hsorted
    intro a b ha hb rab
    have hats : a.2.1 = a.2.2.updated_at :=
      recall_candidate_empty_ts _ _ _ _ _ _ _ a ((List.mem_insertionSort _).mp ha)
    have hbts : b.2.1 = b.2.2.updated_at :=
      recall_candidate_empty_ts _ _ _ _ _ _ _ b ((List.mem_insertionSort _).mp hb)
    rw [rank_by_ts] at rab
    rcases rab with h | ⟨h, -⟩
    · rw [← hats, ← hbts]
      exact le_of_lt h
    · rw [← hats, ← hbts, h]
  · simp only [← List.map_take, List.map_map]
    rfl

theorem C9_witness :
    (normalize_text args_generic.query 220 = "" ∨
      looks_like_generic_recall_query (normalize_text args_generic.query 220) = true) ∧
    (canonicalize_key args_generic.key = "") ∧
    (normalize_tags args_generic.tags = []) ∧
    (∃ sorted : List MemoryEntry,
      List.Perm sorted (([entry_fact_one, entry_fact_two]).filter
        (fun e => matches_scope e (resolve_scope args_generic.scope)
          (normalize_text rt_alice.user_name 96))) ∧
      sorted.Pairwise (fun a b => b.updated_at ≤ a.updated_at) ∧
      («recall» args_generic rt_alice 100 zero_fts "req"
          [entry_fact_one, entry_fact_two]).memories =
        (sorted.take (safe_int args_generic.limit 5 1 20).toNat).map
          (fun e => public_memory e (resolve_scope args_generic.scope = "all"))) :=
  ⟨by decide, by decide, by decide,
   C9_generic_recall args_generic rt_alice 100 zero_fts "req"
     [entry_fact_one, entry_fact_two] (by decide) (by decide) (by decide)⟩

/-- C1: remembering the same fact twice dedupes.  Starting from a
well-formed store with room left, in which no in-scope entry already
carries the fact or its canonical key, the first `remember` appends
(`"saved"`, count `n + 1`) and the second `remember` on the persisted
store updates in place (`"updated"`, count still `n + 1`). -/
theorem C1_remember_dedup (F : String) (rt : RuntimeInfo)
    (now₁ now₂ : Nat) (nid₁ nid₂ : String) (pf₁ pf₂ : Nat → String)
    (req₁ req₂ : String) (entries : List MemoryEntry)
    (hF : normalize_text F MAX_FACT_LEN ≠ "")
    (hlen : entries.length < MAX_ENTRIES)
    (hwf : ∀ e ∈ entries,
      normalize_text e.fact MAX_FACT_LEN = e.fact ∧ e.fact ≠ "")
    (hnofact : ∀ e ∈ entries,
      matches_scope e "current_user" (normalize_text rt.user_name 96) = true →
      lowerStr (normalize_text e.fact MAX_FACT_LEN) ≠
        lowerStr (normalize_text F MAX_FACT_LEN))
    (hnokey : remember_key { fact := F } ≠ "" → ∀ e ∈ entries,
      matches_scope e "current_user" (normalize_text rt.user_name 96) = true →
      canonicalize_key e.key ≠ remember_key { fact := F }) :
    ∃ r₁ r₂ : RememberResult,
      remember { fact := F } rt now₁ nid₁ pf₁ req₁ entries = .ok r₁ ∧
      remember { fact := F } rt now₂ nid₂ pf₂ req₂ r₁.store = .ok r₂ ∧
      r₁.status = "saved" ∧ r₁.total_memories = entries.length + 1 ∧
      r₂.status = "updated" ∧ r₂.total_memories = entries.length + 1 := by
  have hpred₁ : ∀ e ∈ entries, remember_fact_pred { fact := F } rt e = false := by
    intro e he
    rw [remember_fact_pred]
    cases hm : matches_scope e "current_user" (normalize_text rt.user_name 96) with
    | false => rfl
    | true =>
      simp only [Bool.true_and]
      exact beq_eq_false_iff_ne.mpr (hnofact e he hm)
  have hfail₁ : replace_first (remember_fact_pred { fact := F } rt)
      (remember_update { fact := F } rt now₁) entries = none :=
    replace_first_none_of _ _ entries hpred₁
  have hcore₁ : remember_core { fact := F } rt now₁ nid₁ entries =
      .ok ⟨"saved", remember_new_entry { fact := F } rt now₁ nid₁,
        entries ++ [remember_new_entry { fact := F } rt now₁ nid₁]⟩ := by
    rw [remember_core, if_neg hF, hfail₁]
    by_cases hk : remember_key { fact := F } = ""
    · rw [if_neg (by simp [hk])]
    · rw [if_pos (by simp [hk])]
      have hpredk : ∀ e ∈ entries, remember_key_pred { fact := F } rt e = false := by
        intro e he
        rw [remember_key_pred]
        cases hm : matches_scope e "current_user" (normalize_text rt.user_name 96) with
        | false => rfl
        | true =>
          simp only [Bool.true_and]
          exact beq_eq_false_iff_ne.mpr (hnokey hk e he hm)
      rw [replace_first_none_of _ _ entries hpredk]
  have hwf₁ : ∀ e ∈ entries ++ [remember_new_entry { fact := F } rt now₁ nid₁],
      normalize_text e.fact MAX_FACT_LEN = e.fact ∧ e.fact ≠ "" := by
    intro e he
    rcases List.mem_append.mp he with he | he
    · exact hwf e he
    · rcases List.mem_singleton.mp he with rfl
      exact ⟨normalize_text_idem F MAX_FACT_LEN, hF⟩
  have hlen₁ : (prepare_entries now₁ pf₁
      (entries ++ [remember_new_entry { fact := F } rt now₁ nid₁])).length =
      entries.length + 1 := by
    rw [prepare_entries_length now₁ pf₁ _ hwf₁]
    rw [List.length_append]
    rw [MAX_ENTRIES] at hlen ⊢
    simp only [List.length_singleton]
    omega
  have hr₁ : remember { fact := F } rt now₁ nid₁ pf₁ req₁ entries =
      .ok { status := "saved",
            memory := public_memory (remember_new_entry { fact := F } rt now₁ nid₁) false,
            total_memories := (prepare_entries now₁ pf₁
              (entries ++ [remember_new_entry { fact := F } rt now₁ nid₁])).length,
            request_id := req₁,
            store := prepare_entries now₁ pf₁
              (entries ++ [remember_new_entry { fact := F } rt now₁ nid₁]) } := by
    rw [remember, hcore₁]
    rfl
  -- the persisted store contains a copy of the fresh entry
  have hlenle : (entries ++ [remember_new_entry { fact := F } rt now₁ nid₁]).length ≤
      MAX_ENTRIES := by
    rw [List.length_append]
    rw [MAX_ENTRIES] at hlen ⊢
    simp only [List.length_singleton]
    omega
  obtain ⟨x, hxmem, hxfact, hxuser⟩ :=
    prepare_entries_complete now₁ pf₁ _ hwf₁ hlenle
      (remember_new_entry { fact := F } rt now₁ nid₁)
      (List.mem_append.mpr (Or.inr (List.mem_singleton.mpr rfl)))
  have hxuser' : x.user_name = normalize_text rt.user_name 96 := by
    rw [hxuser]
    exact normalize_text_idem rt.user_name 96
  have hxfact' : x.fact = normalize_text F MAX_FACT_LEN := hxfact
  have hxpred : remember_fact_pred { fact := F } rt x = true := by
    rw [remember_fact_pred]
    rw [matches_scope_self x (normalize_text rt.user_name 96)
      (normalize_text_idem rt.user_name 96) hxuser']
    rw [Bool.true_and, hxfact', normalize_text_idem]
    exact beq_self_eq_true _
  obtain ⟨o, n', l', hsf⟩ :=
    replace_first_some_of (remember_fact_pred { fact := F } rt)
      (remember_update { fact := F } rt now₂)
      (prepare_entries now₁ pf₁
        (entries ++ [remember_new_entry { fact := F } rt now₁ nid₁]))
      ⟨x, hxmem, hxpred⟩
  obtain ⟨homem, -, hn', hl'len, hl'mem⟩ := replace_first_some_spec _ _ _ _ _ _ hsf
  have hcore₂ : remember_core { fact := F } rt now₂ nid₂
      (prepare_entries now₁ pf₁
        (entries ++ [remember_new_entry { fact := F } rt now₁ nid₁])) =
      .ok ⟨"updated", n', l'⟩ := by
    rw [remember_core, if_neg hF, hsf]
  have hwf₂ : ∀ y ∈ l', normalize_text y.fact MAX_FACT_LEN = y.fact ∧ y.fact ≠ "" := by
    intro y hy
    rcases hl'mem y hy with rfl | hy
    · rw [hn']
      refine ⟨?_, ?_⟩
      · show normalize_text (normalize_text F MAX_FACT_LEN) MAX_FACT_LEN = _
        exact normalize_text_idem F MAX_FACT_LEN
      · exact hF
    · exact prepare_entries_facts_ok now₁ pf₁ _ y hy
  have hlen₂ : (prepare_entries now₂ pf₂ l').length = entries.length + 1 := by
    rw [prepare_entries_length now₂ pf₂ _ hwf₂, hl'len, hlen₁]
    rw [MAX_ENTRIES] at hlen ⊢
    omega
  have hr₂ : remember { fact := F } rt now₂ nid₂ pf₂ req₂
      (prepare_entries now₁ pf₁
        (entries ++ [remember_new_entry { fact := F } rt now₁ nid₁])) =
      .ok { status := "updated", memory := public_memory n' false,
            total_memories := (prepare_entries now₂ pf₂ l').length,
            request_id := req₂, store := prepare_entries now₂ pf₂ l' } := by
    rw [remember, hcore₂]
    rfl
  exact ⟨_, _, hr₁, hr₂, rfl, hlen₁, rfl, hlen₂⟩

theorem C1_witness :
    normalize_text "likes green tea" MAX_FACT_LEN ≠ "" ∧
    ([] : List MemoryEntry).length < MAX_ENTRIES ∧
    (∃ r₁ r₂ : RememberResult,
      remember { fact := "likes green tea" } rt_alice 100 "mem-a" fresh_ids "r1"
        [] = .ok r₁ ∧
      remember { fact := "likes green tea" } rt_alice 101 "mem-b" fresh_ids "r2"
        r₁.store = .ok r₂ ∧
      r₁.status = "saved" ∧ r₁.total_memories = 0 + 1 ∧
      r₂.status = "updated" ∧ r₂.total_memories = 0 + 1) :=
  ⟨by decide, by decide,
   C1_remember_dedup "likes green tea" rt_alice 100 101 "mem-a" "mem-b"
     fresh_ids fresh_ids "r1" "r2" [] (by decide) (by decide)
     (fun e he => absurd he (List.not_mem_nil e))
     (fun e he => absurd he (List.not_mem_nil e))
     (fun _ e he => absurd he (List.not_mem_nil e))⟩

end UserMemory
